import Mathlib

/-!
Verification development for the tree-sitter incremental parsing service
(`treeSitterParserService.ts`): the changed-node diff over old/new syntax
trees, the range-change translation, the per-session reparse scheduling,
and the language (grammar) catalog built on the async cache.

The TypeScript source is shallowly embedded: pure functions become Lean
functions, the single-threaded asynchronous control flow becomes explicit
small-step state machines driven by an event schedule, and thrown
exceptions become `Except` values.
-/

namespace TSP

/-- A zero-based row/column position, as used internally by tree-sitter
(`Parser.Point`). -/
structure Point where
  row : Nat
  column : Nat
deriving DecidableEq, Repr

/-- The observable data of one syntax-tree node (`Parser.SyntaxNode`):
its identity, the has-local-changes marker set by a structural edit, its
row/column start and end positions and its byte offsets. -/
structure NodeData where
  id : Nat
  hasChanges : Bool
  startPosition : Point
  endPosition : Point
  startIndex : Nat
  endIndex : Nat
deriving DecidableEq, Repr

/-- A syntax tree (`Parser.Tree`): a node with its ordered children. -/
inductive STree where
  | node (data : NodeData) (children : List STree)

/-- The data at the root of a tree (used for `tree.rootNode` and
`cursor.currentNode`). -/
def STree.data : STree → NodeData
  | .node d _ => d

/-- The children of a tree's root. -/
def STree.children : STree → List STree
  | .node _ cs => cs

mutual

/-- Number of nodes in a tree (used to bound the cursor traversal). -/
def STree.size : STree → Nat
  | .node _ cs => 1 + STree.sizeL cs

/-- Total number of nodes in a list of trees. -/
def STree.sizeL : List STree → Nat
  | [] => 0
  | c :: cs => STree.size c + STree.sizeL cs

end

mutual

/-- Two trees have the same shape (same child counts everywhere); this is
the structural comparability that the lock-step cursor walk of
`findChangedNodes` relies on. -/
def sameShape : STree → STree → Bool
  | .node _ cs, .node _ ds => sameShapeL cs ds

/-- Lists of trees have pairwise the same shape. -/
def sameShapeL : List STree → List STree → Bool
  | [], [] => true
  | c :: cs, d :: ds => sameShape c d && sameShapeL cs ds
  | _, _ => false

end

/-- One stack frame of a tree cursor (`Parser.TreeCursor`): the data of
the parent node, the elder siblings already passed (in reverse order) and
the younger siblings still to the right. -/
structure Frame where
  data : NodeData
  leftRev : List STree
  right : List STree

/-- A tree cursor: the stack of frames from the current node up to the
root (innermost first) and the subtree at the current position. -/
structure Cursor where
  frames : List Frame
  cur : STree

/-- `cursor.currentNode` of tree-sitter (restricted to its observable
node data). -/
def Cursor.currentNode (c : Cursor) : NodeData := c.cur.data

/-- `cursor.currentNode.childCount`. -/
def Cursor.childCount (c : Cursor) : Nat := c.cur.children.length

/-- `cursor.gotoFirstChild()`: moves to the first child when one exists;
`none` models the call returning `false` (cursor unmoved). -/
def Cursor.gotoFirstChild (c : Cursor) : Option Cursor :=
  match c.cur with
  | .node _ [] => none
  | .node d (x :: xs) => some ⟨⟨d, [], xs⟩ :: c.frames, x⟩

/-- `cursor.gotoNextSibling()`: moves to the next sibling when one
exists; `none` models the call returning `false`. -/
def Cursor.gotoNextSibling (c : Cursor) : Option Cursor :=
  match c.frames with
  | [] => none
  | f :: fs =>
    match f.right with
    | [] => none
    | x :: xs => some ⟨⟨f.data, c.cur :: f.leftRev, xs⟩ :: fs, x⟩

/-- `cursor.gotoParent()`: moves to the parent when one exists; `none`
models the call returning `false`. -/
def Cursor.gotoParent (c : Cursor) : Option Cursor :=
  match c.frames with
  | [] => none
  | f :: fs => some ⟨fs, .node f.data (f.leftRev.reverse ++ c.cur :: f.right)⟩

/-- Truthiness of `cursor.currentNode.nextSibling`: a next sibling node
exists exactly when the innermost frame still has younger siblings. -/
def Cursor.hasNextSibling (c : Cursor) : Bool :=
  match c.frames with
  | [] => false
  | f :: _ => !f.right.isEmpty

/-- Truthiness of `cursor.currentNode.parent`. -/
def Cursor.hasParent (c : Cursor) : Bool := !c.frames.isEmpty

/-- The lock-step helpers of `findChangedNodes` (`gotoNextSibling`,
`gotoParent`, `gotoFirstChild` closures): issue the identical traversal
step on both cursors; when the two outcomes disagree the trees are
desynchronized and `Error('Trees are out of sync')` is thrown, embedded
as `Except.error`. `ok none` models both calls returning `false`. -/
def cursorPairStep (f : Cursor → Option Cursor) (nc oc : Cursor) :
    Except String (Option (Cursor × Cursor)) :=
  match f nc, f oc with
  | some a, some b => .ok (some (a, b))
  | none, none => .ok none
  | _, _ => .error "Trees are out of sync"

/-- The `nextSiblingOrParentSibling` closure of `findChangedNodes`:
advance to the next sibling if the current (new-tree) node has one,
otherwise unwind through parents until a sibling is found, stopping with
`ok none` at a node with neither sibling nor parent.  The recursion
through `gotoParent` shortens the frame stack, so any `fuel` exceeding
the current stack depth suffices; exhaustion is embedded as a
distinguished error that the sufficiency lemmas rule out. -/
def nextSiblingOrParentSibling : Nat → Cursor → Cursor →
    Except String (Option (Cursor × Cursor))
  | 0, _, _ => .error "fuel exhausted"
  | fuel + 1, nc, oc =>
    if nc.hasNextSibling then
      cursorPairStep Cursor.gotoNextSibling nc oc
    else if nc.hasParent then
      match cursorPairStep Cursor.gotoParent nc oc with
      | .error e => .error e
      | .ok none => .ok none
      | .ok (some (nc2, oc2)) => nextSiblingOrParentSibling fuel nc2 oc2
    else .ok none

/-- The main `do … while (next)` loop of
`TreeSitterParseResult.findChangedNodes`: at each node, if the new-tree
node carries `hasChanges` and is not the root, record the pair of current
nodes and do not descend; otherwise descend into the first child when
children exist, else advance via `nextSiblingOrParentSibling`.  `fuel`
bounds the number of loop iterations; `findChangedNodes` supplies a
provably sufficient amount. -/
def fcnLoop (rootId : Nat) : Nat → Cursor → Cursor →
    List (NodeData × NodeData) → Except String (List (NodeData × NodeData))
  | 0, _, _, _ => .error "fuel exhausted"
  | fuel + 1, nc, oc, acc =>
    match (if decide (0 < nc.childCount)
              && !(nc.currentNode.hasChanges && nc.currentNode.id != rootId)
           then cursorPairStep Cursor.gotoFirstChild nc oc
           else nextSiblingOrParentSibling (nc.frames.length + 1) nc oc) with
    | .error e => .error e
    | .ok none =>
        .ok (if nc.currentNode.hasChanges && nc.currentNode.id != rootId
             then acc ++ [(nc.currentNode, oc.currentNode)] else acc)
    | .ok (some (nc2, oc2)) =>
        fcnLoop rootId fuel nc2 oc2
          (if nc.currentNode.hasChanges && nc.currentNode.id != rootId
           then acc ++ [(nc.currentNode, oc.currentNode)] else acc)

/-- `TreeSitterParseResult.findChangedNodes(newTree, oldTree)`: walk the
two trees in lock step from their roots and collect the changed-node
pairs; a traversal-outcome disagreement throws. -/
def findChangedNodes (newTree oldTree : STree) :
    Except String (List (NodeData × NodeData)) :=
  fcnLoop newTree.data.id (newTree.size + 1) ⟨[], newTree⟩ ⟨[], oldTree⟩ []

mutual

/-- Structural specification of the changed-node diff: a node whose data
carries `hasChanges` and whose id differs from the root id is recorded
(paired with the corresponding old node) and its children are not
visited; otherwise the children are collected in order. -/
def collectChanged (rootId : Nat) : STree → STree → List (NodeData × NodeData)
  | .node d cs, .node e ds =>
    if d.hasChanges && d.id != rootId then [(d, e)]
    else collectChangedL rootId cs ds

/-- `collectChanged` over corresponding child lists. -/
def collectChangedL (rootId : Nat) : List STree → List STree → List (NodeData × NodeData)
  | c :: cs, d :: ds => collectChanged rootId c d ++ collectChangedL rootId cs ds
  | _, _ => []

end

/-- A host (text-model) range in 1-based line/column coordinates, as
built by `new Range(startLineNumber, startColumn, endLineNumber,
endColumn)`. -/
structure HostRange where
  startLineNumber : Nat
  startColumn : Nat
  endLineNumber : Nat
  endColumn : Nat
deriving DecidableEq, Repr

/-- The `RangeChange` output record: the new range in host coordinates
plus the byte length of the corresponding old-tree region. -/
structure RangeChange where
  newRange : HostRange
  oldRangeLength : Int
deriving DecidableEq, Repr

/-- The translation of one recorded change unit inside
`TreeSitterParseResult.calculateRangeChange`: 0-based tree positions
become 1-based host positions by adding one to each row and column, and
the old-region length is the old node's `endIndex - startIndex`. -/
def rangeChangeOfPair (p : NodeData × NodeData) : RangeChange :=
  { newRange := { startLineNumber := p.1.startPosition.row + 1
                  startColumn := p.1.startPosition.column + 1
                  endLineNumber := p.1.endPosition.row + 1
                  endColumn := p.1.endPosition.column + 1 }
    oldRangeLength := (p.2.endIndex : Int) - (p.2.startIndex : Int) }

/-- `TreeSitterParseResult.calculateRangeChange(changedNodes)`: maps each
recorded pair through `rangeChangeOfPair`; `undefined` passes through. -/
def calculateRangeChange :
    Option (List (NodeData × NodeData)) → Option (List RangeChange)
  | none => none
  | some nodes => some (nodes.map rangeChangeOfPair)

/-! ## The parse-session state machine

`TreeSitterParseResult.onDidChangeContent`, `_applyEdits`,
`_parseAndUpdateTree` and `_parseAndYield` run on VS Code's
single-threaded scheduler.  The machine below embeds that control flow:
each event is one atomic synchronous segment between suspension points
(promise creation, the serial `_onDidChangeContentQueue` continuation
starting, and the `setTimeout0` yield between parser time slices).
External nondeterminism (which edits arrive, when tasks get scheduled,
what each bounded parser invocation produces) is the event schedule.

`Parser.Tree.edit` is library code outside this repository; the machine
is parameterized by an arbitrary `editFn` standing for one
`tree.edit(change)` call, and content-change payloads are opaque. -/

/-- One continuation queued on `_onDidChangeContentQueue`: it resolves
the promise `pid` with the `changedNodes` value `captured` by the
enclosing `onDidChangeContent` call once its reparse settles. -/
structure QTask where
  pid : Nat
  captured : Option (List RangeChange)
deriving DecidableEq, Repr

/-- Settlement state of a promise returned by `onDidChangeContent`. -/
inductive PStatus where
  | pending
  | resolved (v : Option (List RangeChange))
  | rejected (msg : String)
deriving DecidableEq, Repr

/-- A promise returned to a caller of `onDidChangeContent`: its id, the
`changedNodes` value computed synchronously when it was created, and its
current settlement state. -/
structure PromEntry where
  pid : Nat
  captured : Option (List RangeChange)
  status : PStatus
deriving DecidableEq, Repr

/-- The phase of the session's serial queue: `idle` (no continuation
running) or `yielded t res`: task `t` is inside `_parseAndYield`,
suspended at the `setTimeout0` yield after a parser invocation that
produced `res` (`none` both for a timed-out slice and for a slice whose
`parser.parse` threw, which the loop catches). -/
inductive SPhase where
  | idle
  | yielded (t : QTask) (sliceResult : Option STree)

/-- The mutable state of one `TreeSitterParseResult` session, plus ghost
fields recording observable history: `promises` (every promise handed
out, in creation order) and `commits` (every value assigned through the
`tree` setter by `_parseAndUpdateTree`). -/
structure SessionState where
  tree : Option STree
  newEdits : Bool
  isDisposed : Bool
  modelDisposed : Bool
  queue : List QTask
  phase : SPhase
  promises : List PromEntry
  nextPid : Nat
  commits : List (Option STree)

/-- Events driving one session.  `contentChange` is a model
content-change notification reaching `onDidChangeContent`;
`disposeSession` is `TreeSitterParseResult.dispose()`; `disposeModel`
disposes only the text model; `startTask` is the serial queue scheduling
the next continuation, which runs the dispose check, clears `_newEdits`
and performs the first parser slice synchronously; `resume` is the
continuation after the `setTimeout0` yield, carrying the next slice's
parser result in case the loop continues; `taskFail` is the queued
continuation rejecting (the error lands in the queue's `.catch`, which
only logs). -/
inductive SEv where
  | contentChange (changes : List Nat)
  | disposeSession
  | disposeModel
  | startTask (firstSlice : Option STree)
  | resume (nextSlice : Option STree)
  | taskFail

/-- `TreeSitterParseResult._applyEdits`: one `tree?.edit(change)` per
change (via the abstract `editFn`); with no tree the loop still runs but
edits nothing. -/
def applyEditsTree (editFn : STree → Nat → STree) :
    Option STree → List Nat → Option STree
  | none, _ => none
  | some t, changes => some (changes.foldl editFn t)

/-- The synchronous diff step of `onDidChangeContent`: when both the
just-edited live tree and the pre-edit copy exist, compute
`calculateRangeChange(findChangedNodes(newTree, oldTree))`; otherwise the
`changedNodes` result stays `undefined`.  An `error` is the
`findChangedNodes` exception propagating out of `onDidChangeContent`. -/
def ccDiff (newTree oldTree : Option STree) :
    Except String (Option (List RangeChange)) :=
  match newTree, oldTree with
  | some nt, some ot => (findChangedNodes nt ot).map (fun l => calculateRangeChange (some l))
  | _, _ => .ok none

/-- Resolve the promise `pid` with value `v`. -/
def resolveProm (ps : List PromEntry) (pid : Nat) (v : Option (List RangeChange)) :
    List PromEntry :=
  ps.map (fun e => if e.pid = pid then { e with status := .resolved v } else e)

/-- The synchronous body of `onDidChangeContent(model, changes)`: copy
the current tree, apply the edits to the live tree (setting `_newEdits`
per change), compute the diff, then either hand out a pending promise
and chain its task onto the serial queue, or — when `findChangedNodes`
throws — reject the returned promise without touching the queue. -/
def ccStep (editFn : STree → Nat → STree) (s : SessionState) (changes : List Nat) :
    SessionState :=
  match ccDiff (applyEditsTree editFn s.tree changes) s.tree with
  | .error msg =>
      { s with tree := applyEditsTree editFn s.tree changes,
               newEdits := s.newEdits || !changes.isEmpty,
               promises := s.promises ++ [⟨s.nextPid, none, .rejected msg⟩],
               nextPid := s.nextPid + 1 }
  | .ok captured =>
      { s with tree := applyEditsTree editFn s.tree changes,
               newEdits := s.newEdits || !changes.isEmpty,
               promises := s.promises ++ [⟨s.nextPid, captured, .pending⟩],
               queue := s.queue ++ [⟨s.nextPid, captured⟩],
               nextPid := s.nextPid + 1 }

/-- The serial queue starts the next continuation: `if (this.isDisposed)
return;` drops it (its promise is never settled); otherwise
`_parseAndYield` clears `_newEdits` and runs the first parser slice. -/
def startStep (s : SessionState) (firstSlice : Option STree) : SessionState :=
  match s.phase, s.queue with
  | .idle, t :: rest =>
      if s.isDisposed then { s with queue := rest }
      else { s with queue := rest, newEdits := false, phase := .yielded t firstSlice }
  | _, _ => s

/-- The continuation after the `setTimeout0` yield inside
`_parseAndYield`: if the model or the session is disposed the loop
returns no tree and `_parseAndUpdateTree` runs its `_newEdits`-guarded
assignment with `undefined`; otherwise the loop repeats a slice while no
tree was produced and no new edits arrived, and on exit
`_parseAndUpdateTree` installs the produced tree exactly when `_newEdits`
is still clear; in either completed case the task resolves its promise
with the `changedNodes` captured at enqueue time. -/
def resumeStep (s : SessionState) (nextSlice : Option STree) : SessionState :=
  match s.phase with
  | .idle => s
  | .yielded t res =>
      if s.modelDisposed || s.isDisposed then
        let s2 := if s.newEdits then s
                  else { s with tree := none, commits := s.commits ++ [none] }
        { s2 with phase := .idle, promises := resolveProm s2.promises t.pid t.captured }
      else if res.isNone && !s.newEdits then
        { s with phase := .yielded t nextSlice }
      else
        let s2 := if s.newEdits then s
                  else { s with tree := res, commits := s.commits ++ [res] }
        { s2 with phase := .idle, promises := resolveProm s2.promises t.pid t.captured }

/-- One step of the session machine. -/
def sessionStep (editFn : STree → Nat → STree) (s : SessionState) : SEv → SessionState
  | .contentChange changes => ccStep editFn s changes
  | .disposeSession => { s with isDisposed := true, tree := none }
  | .disposeModel => { s with modelDisposed := true }
  | .startTask firstSlice => startStep s firstSlice
  | .resume nextSlice => resumeStep s nextSlice
  | .taskFail =>
      match s.phase with
      | .yielded _ _ => { s with phase := .idle }
      | .idle => s

/-- Run a schedule of events. -/
def sessionRun (editFn : STree → Nat → STree) (s : SessionState) (evs : List SEv) :
    SessionState :=
  evs.foldl (sessionStep editFn) s

/-- A fresh `TreeSitterParseResult` (no tree yet, `_newEdits = true`). -/
def initSession : SessionState :=
  { tree := none, newEdits := true, isDisposed := false, modelDisposed := false,
    queue := [], phase := .idle, promises := [], nextPid := 0, commits := [] }

/-- Whether the session's serial queue is between continuations. -/
def SessionState.isIdle (s : SessionState) : Bool :=
  match s.phase with
  | .idle => true
  | _ => false

/-- The pids of all continuations still owned by the queue (waiting or
currently running). -/
def taskPids (s : SessionState) : List Nat :=
  s.queue.map QTask.pid ++
    (match s.phase with
     | .idle => []
     | .yielded t _ => [t.pid])

/-- Lookup of a promise entry by pid. -/
def pstFind : List PromEntry → Nat → Option PStatus
  | [], _ => none
  | e :: es, pid => if e.pid = pid then some e.status else pstFind es pid

/-- The settlement state of the promise `pid`, if such a promise was
handed out. -/
def promStatus (s : SessionState) (pid : Nat) : Option PStatus :=
  pstFind s.promises pid


/-! ## The async cache and the language catalog

`AsyncCache` / `PromiseWithSyncAccess` are embedded as pure data: a
cached promise is in one of three states, and the recorded
`PromiseResult` is a function of that state, exactly as installed by the
`then`/`catch` handlers in the `PromiseWithSyncAccess` constructor.
`TreeSitterLanguages` is a state machine over such a cache, with ghost
logs of started fetches and fired `onDidAddLanguage` events. -/

/-- The settlement state of a cached promise. -/
inductive PromiseState (T : Type) where
  | unsettled
  | fulfilled (v : T)
  | failed
deriving DecidableEq, Repr

/-- The `PromiseResult` recorded by `PromiseWithSyncAccess` (from
`base/common/observable`, reconstructed from its two construction sites:
`new PromiseResult(result, undefined)` on fulfillment and
`new PromiseResult(undefined, e)` on rejection): a `data` field and an
error marker. -/
structure PromiseResultM (T : Type) where
  data : Option T
  hasError : Bool
deriving DecidableEq, Repr

/-- `PromiseWithSyncAccess.result`: `undefined` until the promise
settles, then the `PromiseResult` installed by the `then` handler on
success or by the `catch` handler on failure. -/
def promiseResultOf {T : Type} : PromiseState T → Option (PromiseResultM T)
  | .unsettled => none
  | .fulfilled v => some ⟨some v, false⟩
  | .failed => some ⟨none, true⟩

/-- The `_values` map of an `AsyncCache`, with each stored
`PromiseWithSyncAccess` abstracted to its promise's settlement state. -/
def AsyncCacheState (K T : Type) := List (K × PromiseState T)

/-- `AsyncCache.getSyncIfCached(key)`:
`this._values.get(key)?.result?.data` — every step of the optional chain
short-circuits to `undefined`, so the accessor is a total function and
cannot throw. -/
def getSyncIfCached {K T : Type} [BEq K] (c : AsyncCacheState K T) (k : K) : Option T :=
  (((c.find? (fun p => p.1 == k)).map Prod.snd).bind promiseResultOf).bind PromiseResultM.data

/-- `AsyncCache.isCached(key)`: the recorded result is not
`undefined`. -/
def isCachedC {K T : Type} [BEq K] (c : AsyncCacheState K T) (k : K) : Bool :=
  ((((c.find? (fun p => p.1 == k)).map Prod.snd).bind promiseResultOf)).isSome

/-- Outcome of the `_fetchLanguage` promise for one language id:
`ok none` models an unmapped identifier (the function returns
`undefined`), `ok (some l)` a loaded grammar, `err` a rejected fetch
(`fileService.readFile` or `Language.load` throwing).  Grammars are
opaque and numbered. -/
inductive FetchRes where
  | ok (lang : Option Nat)
  | err
deriving DecidableEq, Repr

/-- A `_languages` cache entry for an id whose load was started:
in flight, or settled with a recorded `FetchRes`. -/
inductive LEntry where
  | inFlight
  | recorded (r : FetchRes)
deriving DecidableEq, Repr

/-- State of `TreeSitterLanguages`: the `_languages` cache plus ghost
logs of the `_fetchLanguage` calls started and the `_onDidAddLanguage`
events fired (in order). -/
structure LangState where
  entries : List (String × LEntry)
  fetches : List String
  fired : List (String × Nat)
deriving DecidableEq, Repr

/-- Events of the catalog machine: a synchronous request
(`getOrInitLanguage`), the synchronous segment of an awaitable request
(`getLanguage`), and the settlement of the in-flight fetch for an id
(which also runs the initiating `_addLanguage` continuation: record the
result and fire `onDidAddLanguage` exactly when a grammar was loaded). -/
inductive LEv where
  | getOrInit (id : String)
  | getLang (id : String)
  | settle (id : String) (r : FetchRes)
deriving DecidableEq, Repr

/-- Association lookup in the `_languages` map. -/
def entFind : List (String × LEntry) → String → Option LEntry
  | [], _ => none
  | (k, v) :: es, id => if k = id then some v else entFind es id

/-- The cache entry for an id. -/
def lookupEntry (s : LangState) (id : String) : Option LEntry :=
  entFind s.entries id

/-- The shared synchronous segment of `getOrInitLanguage` and
`getLanguage`: when the result is already recorded only the cache is
read; otherwise `_addLanguage` runs, and its `if (!languagePromise)`
check starts `_fetchLanguage` exactly when the id has no cache entry,
immediately storing the in-flight promise under the id. -/
def requestStep (s : LangState) (id : String) : LangState :=
  match lookupEntry s id with
  | none => { s with entries := s.entries ++ [(id, .inFlight)], fetches := s.fetches ++ [id] }
  | some _ => s

/-- The fetch for `id` settles with result `r`: the
`PromiseWithSyncAccess` records it, and the initiating `_addLanguage`
continuation resumes — `if (!language) return;` suppresses the event
unless a grammar was actually loaded, in which case
`_onDidAddLanguage.fire({ id, language })` runs. -/
def settleStep (s : LangState) (id : String) (r : FetchRes) : LangState :=
  match lookupEntry s id with
  | some .inFlight =>
      { s with entries := s.entries.map (fun p => if p.1 = id then (p.1, .recorded r) else p),
               fired := s.fired ++ (match r with
                                    | .ok (some l) => [(id, l)]
                                    | _ => []) }
  | _ => s

/-- One step of the catalog machine. -/
def langStep (s : LangState) : LEv → LangState
  | .getOrInit id => requestStep s id
  | .getLang id => requestStep s id
  | .settle id r => settleStep s id r

/-- Run a schedule of catalog events. -/
def langRun (s : LangState) (evs : List LEv) : LangState :=
  evs.foldl langStep s

/-- A fresh `TreeSitterLanguages` (empty cache). -/
def initLang : LangState := ⟨[], [], []⟩

/-- Whether a schedule contains a request (either accessor) for `id`. -/
def requestsId (evs : List LEv) (id : String) : Bool :=
  evs.any (fun e => match e with
                    | .getOrInit j => j = id
                    | .getLang j => j = id
                    | .settle _ _ => false)

/-- The events fired for one id. -/
def firedFor (s : LangState) (id : String) : List (String × Nat) :=
  s.fired.filter (fun p => p.1 = id)

/-- What a caller of `TreeSitterLanguages.getLanguage(id)` observes.  The
call's effect on the cache is `requestStep`; its settlement is a
function of the cache entry at call time and of the eventual outcome
`eventual` of the (unique) fetch for the id.  When the result is already
recorded, the settled `getSyncIfCached` value is returned; otherwise the
call flows through `await this._addLanguage(...)` and
`return this._languages.get(...)`, both of which track the fetch
promise: its fulfillment value is returned, and its rejection rejects
the `getLanguage` promise. -/
inductive GLOutcome where
  | resolves (lang : Option Nat)
  | rejects
deriving DecidableEq, Repr

/-- `getSyncIfCached` restricted to a catalog entry, with the JS
collapse of `(Language | undefined) | undefined`: a recorded successful
fetch yields its (possibly absent) grammar, a recorded failure yields
`undefined` because the recorded `PromiseResult` has no `data`. -/
def getSyncIfCachedL : Option LEntry → Option Nat
  | some (.recorded (.ok l)) => l
  | _ => none

/-- `isCached` restricted to a catalog entry. -/
def isCachedL : Option LEntry → Bool
  | some (.recorded _) => true
  | _ => false

/-- Settlement of one `getLanguage(id)` call, given the cache entry for
`id` at call time and the eventual outcome of the fetch for `id`. -/
def getLanguageOutcome (entry : Option LEntry) (eventual : FetchRes) : GLOutcome :=
  if isCachedL entry then .resolves (getSyncIfCachedL entry)
  else
    match eventual with
    | .ok l => .resolves l
    | .err => .rejects


/-! ## Concrete instances used by witnesses and counterexamples -/

/-- A node-data literal. -/
def mkND (i : Nat) (ch : Bool) : NodeData := ⟨i, ch, ⟨0, 0⟩, ⟨0, 0⟩, 0, 0⟩

/-- A one-node tree. -/
def leafT : STree := .node (mkND 0 false) []

/-- A three-node new tree whose middle child is marked changed. -/
def exNewT : STree :=
  .node (mkND 0 false) [.node (mkND 1 true) [.node (mkND 2 true) []], .node (mkND 3 false) []]

/-- The corresponding old tree (same shape, nothing marked). -/
def exOldT : STree :=
  .node (mkND 10 false) [.node (mkND 11 false) [.node (mkND 12 false) []], .node (mkND 13 false) []]

/-- An identity `tree.edit` stand-in (spans unchanged). -/
def idEdit : STree → Nat → STree := fun t _ => t

/-- A structure-changing `tree.edit` stand-in: hangs a fresh child under
the root, so the edited live tree and its pre-edit copy desynchronize. -/
def desyncEdit : STree → Nat → STree :=
  fun t _ => .node t.data (t.children ++ [.node (mkND 99 true) []])

/-- The spec's example change unit: new node at zero-based
`(row=2, col=4)`..`(row=2, col=6)`, old node spanning bytes 7..19. -/
def exPair : NodeData × NodeData :=
  (⟨5, true, ⟨2, 4⟩, ⟨2, 6⟩, 30, 32⟩, ⟨6, false, ⟨2, 4⟩, ⟨2, 6⟩, 7, 19⟩)

/-- Whether one event is a request (either accessor) for `id`. -/
def isRequestFor (e : LEv) (id : String) : Bool :=
  match e with
  | .getOrInit j => j = id
  | .getLang j => j = id
  | .settle _ _ => false

/-- The fired-events log for `id`, as predicted by the cache entry:
nonempty exactly when a successful load was recorded. -/
def expectedFired (s : LangState) (id : String) : List (String × Nat) :=
  match lookupEntry s id with
  | some (.recorded (.ok (some l))) => [(id, l)]
  | _ => []

/-- Structural invariant of reachable session states: promise ids are
bounded by the counter and pairwise distinct, every queued or running
task has a matching pending promise entry, task pids are pairwise
distinct, and a resolved promise carries its creation-time value. -/
structure SessionInv (s : SessionState) : Prop where
  bound : ∀ e ∈ s.promises, e.pid < s.nextPid
  nodup : (s.promises.map PromEntry.pid).Nodup
  tasks : ∀ t ∈ s.queue, (⟨t.pid, t.captured, .pending⟩ : PromEntry) ∈ s.promises
  phaseTask : ∀ t res, s.phase = .yielded t res →
      (⟨t.pid, t.captured, .pending⟩ : PromEntry) ∈ s.promises
  taskNodup : (taskPids s).Nodup
  resCorrect : ∀ e ∈ s.promises, ∀ v, e.status = .resolved v → v = e.captured

/-- Concrete mid-pass session used by the C2 witness: the first parse is
running (task 0) and a nonempty content change arrived during its
yield. -/
def w2s : SessionState :=
  sessionRun idEdit initSession
    [.contentChange [], .startTask none, .contentChange [1]]

/-- Remaining right-sibling work recorded in a frame stack. -/
def sumRights : List Frame → Nat
  | [] => 0
  | f :: fs => STree.sizeL f.right + sumRights fs

/-- Remaining traversal work at a cursor position: the current subtree
plus all pending right siblings. -/
def remNew (c : Cursor) : Nat := c.cur.size + sumRights c.frames

/-- The concrete orphaning scenario: a parsed session receives change 1,
then the session is disposed before the queued reparse starts. -/
def w10s : SessionState :=
  sessionRun idEdit initSession
    [.contentChange [], .startTask (some leafT), .resume none,
     .contentChange [1], .disposeSession]

/-- The same scenario one step later: the queue started (and discarded)
the task for change 1. -/
def w10s2 : SessionState := startStep w10s none

/-- The concrete parsed session used by the C1 witness. -/
def w1s : SessionState :=
  sessionRun idEdit initSession
    [.contentChange [], .startTask (some leafT), .resume none]

/-- The concrete parsed session used by the C9 witness. -/
def w9s : SessionState :=
  sessionRun desyncEdit initSession
    [.contentChange [], .startTask (some leafT), .resume none]

/-- Shape similarity of two cursor frames: passed and pending siblings
pairwise agree in shape. -/
def frameSim (f g : Frame) : Bool :=
  sameShapeL f.leftRev g.leftRev && sameShapeL f.right g.right

/-- Shape similarity of two frame stacks. -/
def framesSim : List Frame → List Frame → Bool
  | [], [] => true
  | f :: fs, g :: gs => frameSim f g && framesSim fs gs
  | _, _ => false

/-- The changed-node output still owed by the pending right siblings of
a pair of frame stacks. -/
def framesRest (rootId : Nat) : List Frame → List Frame → List (NodeData × NodeData)
  | f :: fs, g :: gs =>
      collectChangedL rootId f.right g.right ++ framesRest rootId fs gs
  | _, _ => []

/-! ## Theorems -/

/-- C4. `AsyncCache.getSyncIfCached` is a total function of the cached
promise state (the optional chain `get(key)?.result?.data` cannot
throw): it returns the settled success value when the promise fulfilled,
and nothing when the key is unknown, the promise is still pending, or
the promise failed (the recorded `PromiseResult` then has no data). -/
theorem getSyncIfCached_never_throws {K T : Type} [BEq K]
    (c : AsyncCacheState K T) (k : K) :
    getSyncIfCached c k =
      (match (c.find? (fun p => p.1 == k)).map Prod.snd with
       | some (.fulfilled v) => some v
       | _ => none) := by
  unfold getSyncIfCached
  cases h : (c.find? (fun p => p.1 == k)).map Prod.snd with
  | none => simp [h]
  | some ps => cases ps <;> simp [h, promiseResultOf]

/-- C8. Each recorded change unit is translated to a `RangeChange` whose
1-based host coordinates are the new node's 0-based tree coordinates
plus one, and whose old-region length is the old node's end byte offset
minus its start byte offset; the mapped record is in the output. -/
theorem calculateRangeChange_translation
    (nodes : List (NodeData × NodeData)) (p : NodeData × NodeData)
    (hp : p ∈ nodes) :
    calculateRangeChange (some nodes) = some (nodes.map rangeChangeOfPair) ∧
    rangeChangeOfPair p ∈ (nodes.map rangeChangeOfPair) ∧
    (rangeChangeOfPair p).newRange.startLineNumber = p.1.startPosition.row + 1 ∧
    (rangeChangeOfPair p).newRange.startColumn = p.1.startPosition.column + 1 ∧
    (rangeChangeOfPair p).newRange.endLineNumber = p.1.endPosition.row + 1 ∧
    (rangeChangeOfPair p).newRange.endColumn = p.1.endPosition.column + 1 ∧
    (rangeChangeOfPair p).oldRangeLength
      = (p.2.endIndex : Int) - (p.2.startIndex : Int) := by
  refine ⟨rfl, List.mem_map_of_mem _ hp, rfl, rfl, rfl, rfl, rfl⟩

/-- Witness for C8 at the spec's example coordinates: zero-based
`(row=2, col=4)` translates to one-based `(row=3, col=5)`, and the old
node spanning bytes 7..19 reports old length 12. -/
theorem calculateRangeChange_translation_witness :
    exPair ∈ [exPair] ∧
    (rangeChangeOfPair exPair).newRange.startLineNumber = 3 ∧
    (rangeChangeOfPair exPair).newRange.startColumn = 5 ∧
    (rangeChangeOfPair exPair).oldRangeLength = 12 := by
  have h := calculateRangeChange_translation [exPair] exPair (List.mem_singleton.mpr rfl)
  exact ⟨List.mem_singleton.mpr rfl, h.2.2.1, h.2.2.2.1, by decide⟩

/-- C3 counterexample. With no cache entry for the identifier and a
fetch that fails, `getLanguage` does not resolve to "no grammar": the
rejection of the `_fetchLanguage` promise flows through
`await this._addLanguage(...)` (first caller) or through the returned
cached promise (concurrent callers), so the call rejects. -/
theorem getLanguage_rejects_on_failed_fetch :
    getLanguageOutcome none FetchRes.err = GLOutcome.rejects ∧
    getLanguageOutcome none FetchRes.err ≠ GLOutcome.resolves none ∧
    getLanguageOutcome (some .inFlight) FetchRes.err = GLOutcome.rejects := by
  refine ⟨rfl, ?_, rfl⟩
  intro h
  simp [getLanguageOutcome, isCachedL] at h

/-- C3 amended. `getLanguage` resolves to no grammar when the identifier
is unmapped (the fetch settles with no grammar) and, once a failed fetch
has been recorded, on every later call; it rejects exactly when the
fetch fails before its failure is recorded (the initiating call and
calls overlapping the in-flight load). -/
theorem getLanguage_outcome_cases (entry : Option LEntry) (eventual : FetchRes)
    (hcons : ∀ r, entry = some (.recorded r) → r = eventual) :
    (eventual = .ok none → getLanguageOutcome entry eventual = .resolves none) ∧
    (∀ l, eventual = .ok l → getLanguageOutcome entry eventual = .resolves l) ∧
    (isCachedL entry = true → getLanguageOutcome entry eventual ≠ .rejects) ∧
    (entry = some (.recorded .err) → getLanguageOutcome entry eventual = .resolves none) ∧
    (getLanguageOutcome entry eventual = .rejects ↔
       (isCachedL entry = false ∧ eventual = .err)) := by
  match entry, eventual with
  | none, .ok l => simp [getLanguageOutcome, isCachedL]
  | none, .err => simp [getLanguageOutcome, isCachedL]
  | some .inFlight, .ok l => simp [getLanguageOutcome, isCachedL]
  | some .inFlight, .err => simp [getLanguageOutcome, isCachedL]
  | some (.recorded r), ev =>
    have hr : r = ev := hcons r rfl
    subst hr
    cases r with
    | ok l => cases l <;> simp [getLanguageOutcome, isCachedL, getSyncIfCachedL]
    | err => simp [getLanguageOutcome, isCachedL, getSyncIfCachedL]

/-- Witness for C3 (amended): an unmapped identifier with no prior cache
entry resolves to no grammar. -/
theorem getLanguage_outcome_cases_witness :
    getLanguageOutcome none (.ok none) = .resolves none :=
  (getLanguage_outcome_cases none (.ok none) (fun r h => by cases h)).1 rfl


/-! ## Lemmas about the language catalog machine -/

/-- Looking up after appending a fresh entry at the end. -/
theorem entFind_append (es : List (String × LEntry)) (k : String) (v : LEntry)
    (id : String) :
    entFind (es ++ [(k, v)]) id =
      (match entFind es id with
       | some w => some w
       | none => if k = id then some v else none) := by
  induction es with
  | nil => simp [entFind]
  | cons p es ih =>
    obtain ⟨pk, pv⟩ := p
    by_cases h : pk = id <;> simp [entFind, h, ih]

/-- Looking up after recording a settlement for `id`. -/
theorem entFind_record (es : List (String × LEntry)) (id : String) (r : FetchRes)
    (j : String) :
    entFind (es.map (fun p => if p.1 = id then (p.1, LEntry.recorded r) else p)) j =
      (if j = id then (entFind es j).map (fun _ => LEntry.recorded r)
       else entFind es j) := by
  induction es with
  | nil => by_cases h : j = id <;> simp [entFind, h]
  | cons p es ih =>
    obtain ⟨pk, pv⟩ := p
    have hmap : (if (pk, pv).1 = id then ((pk, pv).1, LEntry.recorded r) else (pk, pv))
        = (pk, if pk = id then LEntry.recorded r else pv) := by
      by_cases h : pk = id <;> simp [h]
    rw [List.map_cons, hmap]
    by_cases hpj : pk = j
    · subst hpj
      by_cases hj : pk = id <;> simp [entFind, hj]
    · simp [entFind, hpj, ih]

/-- A request for `j` behaves identically through `getOrInitLanguage`
and `getLanguage`: its cache effect is `requestStep`. -/
theorem langStep_request (s : LangState) (j : String) :
    langStep s (.getOrInit j) = requestStep s j ∧
    langStep s (.getLang j) = requestStep s j := ⟨rfl, rfl⟩

/-- Effect of `requestStep` on fetch counts and entry presence. -/
theorem requestStep_fetch_count (s : LangState) (j id : String) :
    (requestStep s j).fetches.count id =
      s.fetches.count id +
        (if (lookupEntry s id).isSome = false ∧ (j = id) then 1 else 0) ∧
    ((lookupEntry (requestStep s j) id).isSome
      = ((lookupEntry s id).isSome || (j == id))) := by
  unfold requestStep
  cases hj : lookupEntry s j with
  | some v =>
    by_cases h : j = id
    · subst h
      simp [hj]
    · simp [h]
  | none =>
    constructor
    · by_cases h : j = id
      · subst h
        simp only [lookupEntry] at hj
        simp [lookupEntry, hj, List.count_append]
      · simp only [List.count_append]
        have : List.count id [j] = 0 := by
          simp [List.count_singleton]
          exact fun hh => h (by simp [hh])
        simp [this, h]
    · simp only [lookupEntry, entFind_append]
      by_cases h : j = id
      · subst h
        simp only [lookupEntry] at hj
        simp [hj]
      · simp only [lookupEntry] at hj
        cases hfind : entFind s.entries id <;> simp [hfind, h, Ne.symm h]

/-- Effect of `settleStep` on fetch counts and entry presence. -/
theorem settleStep_fetch_count (s : LangState) (j : String) (r : FetchRes)
    (id : String) :
    (settleStep s j r).fetches.count id = s.fetches.count id ∧
    ((lookupEntry (settleStep s j r) id).isSome = (lookupEntry s id).isSome) := by
  unfold settleStep
  cases hj : lookupEntry s j with
  | none => simp
  | some v =>
    cases v with
    | recorded r2 => simp
    | inFlight =>
      refine ⟨rfl, ?_⟩
      simp only [lookupEntry, entFind_record]
      by_cases h : id = j
      · subst h
        simp only [lookupEntry] at hj
        simp [hj]
      · simp [h]

/-- One catalog step: the fetch log gains `id` exactly when a request
for `id` finds no cache entry, and the entry for `id` becomes present
exactly then. -/
theorem langStep_fetch_count (s : LangState) (e : LEv) (id : String) :
    (langStep s e).fetches.count id =
      s.fetches.count id +
        (if (lookupEntry s id).isSome = false ∧ isRequestFor e id = true then 1 else 0) ∧
    ((lookupEntry (langStep s e) id).isSome
      = ((lookupEntry s id).isSome || isRequestFor e id)) := by
  cases e with
  | getOrInit j =>
    have h := requestStep_fetch_count s j id
    refine ⟨?_, ?_⟩
    · rw [(langStep_request s j).1, h.1]
      by_cases hj : j = id <;> simp [isRequestFor, hj]
    · rw [(langStep_request s j).1, h.2]
      by_cases hj : j = id <;> simp [isRequestFor, hj]
  | getLang j =>
    have h := requestStep_fetch_count s j id
    refine ⟨?_, ?_⟩
    · rw [(langStep_request s j).2, h.1]
      by_cases hj : j = id <;> simp [isRequestFor, hj]
    · rw [(langStep_request s j).2, h.2]
      by_cases hj : j = id <;> simp [isRequestFor, hj]
  | settle j r =>
    have h := settleStep_fetch_count s j r id
    exact ⟨by rw [show langStep s (.settle j r) = settleStep s j r from rfl, h.1]
              simp [isRequestFor],
           by rw [show langStep s (.settle j r) = settleStep s j r from rfl, h.2]
              simp [isRequestFor]⟩

/-- Running a schedule: the number of fetches for `id` is determined by
whether the entry exists (one fetch already happened) or a request for
`id` occurs in the schedule. -/
theorem langRun_fetch_count (evs : List LEv) (s : LangState) (id : String)
    (hinv : s.fetches.count id = (if (lookupEntry s id).isSome then 1 else 0)) :
    (langRun s evs).fetches.count id =
      (if ((lookupEntry s id).isSome || requestsId evs id) then 1 else 0) := by
  induction evs generalizing s with
  | nil => simpa [langRun, requestsId] using hinv
  | cons e evs ih =>
    have hstep := langStep_fetch_count s e id
    have hreq : requestsId (e :: evs) id = (isRequestFor e id || requestsId evs id) := by
      cases e <;> simp [requestsId, isRequestFor, List.any_cons]
    have hinv2 : (langStep s e).fetches.count id
        = (if (lookupEntry (langStep s e) id).isSome then 1 else 0) := by
      rw [hstep.1, hstep.2, hinv]
      by_cases h1 : (lookupEntry s id).isSome <;> by_cases h2 : isRequestFor e id <;>
        simp [h1, h2]
    have := ih (langStep s e) hinv2
    rw [show langRun s (e :: evs) = langRun (langStep s e) evs from rfl, this,
        hstep.2, hreq]
    by_cases h1 : (lookupEntry s id).isSome <;> by_cases h2 : isRequestFor e id <;>
      by_cases h3 : requestsId evs id <;> simp [h1, h2, h3]

/-- C5. Grammar load deduplication: over any schedule of synchronous
(`getOrInitLanguage`) and awaitable (`getLanguage`) requests interleaved
with fetch settlements, the catalog starts the underlying
`_fetchLanguage` for an identifier exactly once when the schedule
requests it at all — re-entrant requests while the load is in flight and
requests after it settles never start a second fetch — and never when it
is not requested. -/
theorem grammar_fetch_dedup (evs : List LEv) (id : String) :
    (langRun initLang evs).fetches.count id = (if requestsId evs id then 1 else 0) := by
  have h := langRun_fetch_count evs initLang id (by simp [initLang, lookupEntry, entFind])
  simpa [initLang, lookupEntry, entFind] using h


/-- One catalog step preserves the fired-events accounting. -/
theorem langStep_fired (s : LangState) (e : LEv) (id : String)
    (hinv : firedFor s id = expectedFired s id) :
    firedFor (langStep s e) id = expectedFired (langStep s e) id := by
  cases e with
  | getOrInit j | getLang j =>
    show firedFor (requestStep s j) id = expectedFired (requestStep s j) id
    unfold requestStep
    cases hj : lookupEntry s j with
    | some v => simpa using hinv
    | none =>
      by_cases h : j = id
      · subst h
        simp only [lookupEntry] at hj
        simp only [firedFor, expectedFired, lookupEntry, entFind_append, hj] at hinv ⊢
        simpa using hinv
      · simp only [firedFor, expectedFired, lookupEntry, entFind_append] at hinv ⊢
        rw [show ((if j = id then some LEntry.inFlight else none) : Option LEntry)
              = none from by simp [h]] at *
        cases hfind : entFind s.entries id with
        | none => simpa [hfind] using hinv
        | some v => simpa [hfind] using hinv
  | settle j r =>
    show firedFor (settleStep s j r) id = expectedFired (settleStep s j r) id
    unfold settleStep
    cases hj : lookupEntry s j with
    | none => simpa using hinv
    | some v =>
      cases v with
      | recorded r2 => simpa using hinv
      | inFlight =>
        simp only [firedFor, expectedFired, lookupEntry, entFind_record,
          List.filter_append] at hinv ⊢
        by_cases h : id = j
        · subst h
          simp only [lookupEntry] at hj
          simp only [hj]
          simp only [firedFor, expectedFired, lookupEntry, hj] at hinv
          cases r with
          | err => simpa using hinv
          | ok l =>
            cases l with
            | none => simpa using hinv
            | some g => simp [hinv]
        · have hne : ¬ j = id := fun hh => h hh.symm
          simp only [if_neg h]
          cases r with
          | err => simpa using hinv
          | ok l =>
            cases l with
            | none => simpa using hinv
            | some g =>
              rw [show (List.filter (fun p => decide (p.1 = id)) [(j, g)]) = [] from by
                simp [hne]]
              simpa using hinv
  
/-- Fired-events accounting over a whole schedule. -/
theorem langRun_fired (evs : List LEv) (s : LangState) (id : String)
    (hinv : firedFor s id = expectedFired s id) :
    firedFor (langRun s evs) id = expectedFired (langRun s evs) id := by
  induction evs generalizing s with
  | nil => exact hinv
  | cons e evs ih => exact ih (langStep s e) (langStep_fired s e id hinv)

/-- C6. Over any schedule from a fresh catalog, `onDidAddLanguage` fires
at most once per identifier, and an event `(id, l)` has fired exactly
when the load for `id` settled successfully with grammar `l`; when the
load resolves to no grammar (unmapped identifier) or fails, nothing ever
fires for `id`. -/
theorem onDidAddLanguage_exactly_once (evs : List LEv) (id : String) :
    (firedFor (langRun initLang evs) id).length ≤ 1 ∧
    (∀ l, (id, l) ∈ (langRun initLang evs).fired ↔
       lookupEntry (langRun initLang evs) id = some (.recorded (.ok (some l)))) := by
  have h := langRun_fired evs initLang id (by simp [firedFor, expectedFired, initLang,
    lookupEntry, entFind])
  constructor
  · rw [h]
    unfold expectedFired
    cases hfind : lookupEntry (langRun initLang evs) id with
    | none => simp
    | some v =>
      cases v with
      | inFlight => simp
      | recorded r =>
        cases r with
        | err => simp
        | ok l => cases l <;> simp
  · intro l
    have hmem : ((id, l) ∈ (langRun initLang evs).fired)
        ↔ ((id, l) ∈ firedFor (langRun initLang evs) id) := by
      unfold firedFor
      rw [List.mem_filter]
      simp
    rw [hmem, h]
    unfold expectedFired
    cases hfind : lookupEntry (langRun initLang evs) id with
    | none => simp
    | some v =>
      cases v with
      | inFlight => simp
      | recorded r =>
        cases r with
        | err => simp
        | ok lo =>
          cases lo with
          | none => simp
          | some g => simp [Prod.ext_iff, eq_comm]


/-! ## Lemmas about the parse-session machine -/

/-- While a pass is running with `_newEdits` set, no step changes the
ghost commit log, and the machine stays in that configuration until the
pass completes: the superseded in-flight result is never installed. -/
theorem midpass_step (editFn : STree → Nat → STree) (s : SessionState) (e : SEv)
    (hphase : s.isIdle = false) (hne : s.newEdits = true) :
    (sessionStep editFn s e).commits = s.commits ∧
    ((sessionStep editFn s e).isIdle = false → (sessionStep editFn s e).newEdits = true) := by
  obtain ⟨tr, ne, di, md, q, ph, pr, np, co⟩ := s
  cases ne with
  | false => exact Bool.noConfusion hne
  | true =>
  cases ph with
  | idle => exact Bool.noConfusion hphase
  | yielded t res =>
    cases e with
    | contentChange cs =>
      cases h : ccDiff (applyEditsTree editFn tr cs) tr <;>
        simp [sessionStep, ccStep, h, SessionState.isIdle]
    | disposeSession => exact ⟨rfl, fun _ => rfl⟩
    | disposeModel => exact ⟨rfl, fun _ => rfl⟩
    | startTask f => exact ⟨rfl, fun _ => rfl⟩
    | taskFail => exact ⟨rfl, by simp [sessionStep, SessionState.isIdle]⟩
    | resume r =>
      by_cases hd : (md || di) = true <;>
        simp [sessionStep, resumeStep, hd, SessionState.isIdle]

/-- C2. Commit discipline of the reparse loop.
(1) When `_parseAndYield` exits its loop not due to disposal (a tree was
produced or new edits arrived), `_parseAndUpdateTree` installs the
produced tree as the session's current tree, and logs the commit, if and
only if `_newEdits` is still clear; with `_newEdits` set the in-flight
result is discarded and the current tree is untouched.
(2) When the loop observes model/session disposal it returns no tree, so
no parsed tree is ever installed on that path.
(3) A nonempty content change sets `_newEdits`.
(4) Once `_newEdits` is set while a pass is running, the commit log is
unchanged through the remainder of that pass, completion included: the
result that was in flight when the edit arrived never becomes the
current tree. -/
theorem reparse_commit_iff (editFn : STree → Nat → STree) :
    (∀ (s : SessionState) (t : QTask) (res : Option STree) (r : Option STree),
      s.phase = .yielded t res → (s.modelDisposed || s.isDisposed) = false →
      (res.isNone && !s.newEdits) = false →
      (resumeStep s r).tree = (if s.newEdits then s.tree else res) ∧
      (resumeStep s r).commits
        = (if s.newEdits then s.commits else s.commits ++ [res])) ∧
    (∀ (s : SessionState) (t : QTask) (res : Option STree) (r : Option STree),
      s.phase = .yielded t res → (s.modelDisposed || s.isDisposed) = true →
      (resumeStep s r).tree = (if s.newEdits then s.tree else none)) ∧
    (∀ (s : SessionState) (cs : List Nat), cs.isEmpty = false →
      (ccStep editFn s cs).newEdits = true) ∧
    (∀ (s : SessionState) (p : List SEv), s.isIdle = false → s.newEdits = true →
      (∀ n, n < p.length → (sessionRun editFn s (p.take n)).isIdle = false) →
      (sessionRun editFn s p).commits = s.commits) := by
  refine ⟨?_, ?_, ?_, ?_⟩
  · intro s t res r hphase hdisp hexit
    unfold resumeStep
    rw [hphase]
    by_cases hne : s.newEdits = true
    · simp [hdisp, hne]
    · simp only [Bool.not_eq_true] at hne
      have hres : res.isNone = false := by simpa [hne] using hexit
      simp [hdisp, hne, hres]
  · intro s t res r hphase hdisp
    unfold resumeStep
    rw [hphase]
    by_cases hne : s.newEdits = true <;> simp [hdisp, hne]
  · intro s cs hcs
    unfold ccStep
    cases h : ccDiff (applyEditsTree editFn s.tree cs) s.tree <;> simp [h, hcs]
  · intro s p
    induction p generalizing s with
    | nil => intro _ _ _; rfl
    | cons e p ih =>
      intro hphase hne hpre
      have hstep := midpass_step editFn s e hphase hne
      have hcomm : (sessionStep editFn s e).commits = s.commits := hstep.1
      cases p with
      | nil =>
        show (sessionStep editFn s e).commits = s.commits
        exact hcomm
      | cons e2 p2 =>
        have hidle : (sessionStep editFn s e).isIdle = false := by
          have := hpre 1 (by simp)
          simpa [sessionRun] using this
        have hne2 : (sessionStep editFn s e).newEdits = true := hstep.2 hidle
        have hpre2 : ∀ n, n < (e2 :: p2).length →
            (sessionRun editFn (sessionStep editFn s e) ((e2 :: p2).take n)).isIdle
              = false := by
          intro n hn
          have := hpre (n + 1) (by simpa using Nat.succ_lt_succ hn)
          simpa [sessionRun, List.take_succ_cons] using this
        have := ih (sessionStep editFn s e) hidle hne2 hpre2
        rw [show sessionRun editFn s (e :: e2 :: p2)
              = sessionRun editFn (sessionStep editFn s e) (e2 :: p2) from rfl, this,
            hcomm]


/-- Witness for C2: from the concrete mid-pass state with `_newEdits`
set, completing the pass leaves the commit log and the current tree
unchanged — the in-flight result is discarded. -/
theorem reparse_commit_iff_witness :
    (sessionRun idEdit w2s [SEv.resume none]).commits = w2s.commits ∧
    (resumeStep w2s none).tree = w2s.tree := by
  have h := reparse_commit_iff idEdit
  refine ⟨h.2.2.2 w2s [SEv.resume none] (by decide) (by decide) ?_, ?_⟩
  · intro n hn
    have hn0 : n = 0 := Nat.lt_one_iff.mp hn
    subst hn0
    decide
  · have h1 := h.1 w2s ⟨0, none⟩ none none rfl rfl rfl
    rw [h1.1]
    simp [show w2s.newEdits = true from rfl]


/-- `pstFind` still finds an entry after appending more entries. -/
theorem pstFind_append_some (ps more : List PromEntry) (pid : Nat) (st : PStatus)
    (h : pstFind ps pid = some st) : pstFind (ps ++ more) pid = some st := by
  induction ps with
  | nil => simp [pstFind] at h
  | cons a as ih =>
    simp only [pstFind, List.cons_append] at h ⊢
    by_cases ha : a.pid = pid
    · simpa [ha] using h
    · rw [if_neg ha] at h ⊢
      exact ih h

/-- `pstFind` finds a freshly appended entry when no earlier entry has
its pid. -/
theorem pstFind_append_fresh (ps : List PromEntry) (e : PromEntry)
    (h : ∀ x ∈ ps, x.pid ≠ e.pid) : pstFind (ps ++ [e]) e.pid = some e.status := by
  induction ps with
  | nil => simp [pstFind]
  | cons a as ih =>
    have ha : a.pid ≠ e.pid := h a (by simp)
    simp only [List.cons_append, pstFind, if_neg ha]
    exact ih (fun x hx => h x (by simp [hx]))

/-- A found status comes from a member entry. -/
theorem pstFind_mem (ps : List PromEntry) (pid : Nat) (st : PStatus)
    (h : pstFind ps pid = some st) : ∃ e ∈ ps, e.pid = pid ∧ e.status = st := by
  induction ps with
  | nil => simp [pstFind] at h
  | cons a as ih =>
    by_cases ha : a.pid = pid
    · refine ⟨a, by simp, ha, ?_⟩
      simpa [pstFind, ha] using h
    · simp only [pstFind, if_neg ha] at h
      obtain ⟨e, he, h1, h2⟩ := ih h
      exact ⟨e, by simp [he], h1, h2⟩

/-- With pairwise-distinct pids, `pstFind` returns a member's status. -/
theorem pstFind_of_mem_nodup (ps : List PromEntry) (e : PromEntry)
    (he : e ∈ ps) (hnd : (ps.map PromEntry.pid).Nodup) :
    pstFind ps e.pid = some e.status := by
  induction ps with
  | nil => cases he
  | cons a as ih =>
    rw [List.map_cons] at hnd
    have hnd2 := List.nodup_cons.mp hnd
    rcases List.mem_cons.mp he with rfl | hmem
    · simp [pstFind]
    · have ha : a.pid ≠ e.pid := by
        intro hcontra
        exact hnd2.1 (hcontra ▸ List.mem_map_of_mem PromEntry.pid hmem)
      simp only [pstFind, if_neg ha]
      exact ih hmem hnd2.2

/-- Entries with distinct pids: a shared pid forces equality. -/
theorem mem_unique_pid (ps : List PromEntry)
    (hnd : (ps.map PromEntry.pid).Nodup) (a b : PromEntry)
    (ha : a ∈ ps) (hb : b ∈ ps) (hpid : a.pid = b.pid) : a = b := by
  induction ps with
  | nil => cases ha
  | cons x xs ih =>
    rw [List.map_cons] at hnd
    have hnd2 := List.nodup_cons.mp hnd
    rcases List.mem_cons.mp ha with rfl | hma
    · rcases List.mem_cons.mp hb with rfl | hmb
      · rfl
      · exact absurd (hpid ▸ List.mem_map_of_mem PromEntry.pid hmb) hnd2.1
    · rcases List.mem_cons.mp hb with rfl | hmb
      · exact absurd (hpid.symm ▸ List.mem_map_of_mem PromEntry.pid hma) hnd2.1
      · exact ih hnd2.2 hma hmb

/-- `resolveProm` does not change the pid sequence. -/
theorem resolveProm_map_pid (ps : List PromEntry) (pid : Nat)
    (v : Option (List RangeChange)) :
    (resolveProm ps pid v).map PromEntry.pid = ps.map PromEntry.pid := by
  induction ps with
  | nil => rfl
  | cons a as ih =>
    simp only [resolveProm, List.map_cons] at ih ⊢
    by_cases ha : a.pid = pid <;> simp [ha, ih]

/-- `resolveProm` keeps entries with other pids untouched. -/
theorem resolveProm_keep (ps : List PromEntry) (pid : Nat)
    (v : Option (List RangeChange)) (e : PromEntry)
    (he : e ∈ ps) (hne : e.pid ≠ pid) : e ∈ resolveProm ps pid v := by
  have hmem := List.mem_map_of_mem
    (fun x => if x.pid = pid then { x with status := PStatus.resolved v } else x) he
  simp only [if_neg hne] at hmem
  exact hmem

/-- Membership in a resolved list comes from a member of the original. -/
theorem mem_resolveProm (ps : List PromEntry) (pid : Nat)
    (v : Option (List RangeChange)) (x : PromEntry)
    (hx : x ∈ resolveProm ps pid v) :
    ∃ e ∈ ps, x = (if e.pid = pid then { e with status := .resolved v } else e) := by
  obtain ⟨e, he, hfe⟩ := List.mem_map.mp hx
  exact ⟨e, he, hfe.symm⟩

/-- `pstFind` for a pid other than the resolved one is unchanged. -/
theorem pstFind_resolveProm_ne (ps : List PromEntry) (pid : Nat)
    (v : Option (List RangeChange)) (j : Nat) (hne : j ≠ pid) :
    pstFind (resolveProm ps pid v) j = pstFind ps j := by
  induction ps with
  | nil => rfl
  | cons a as ih =>
    show pstFind ((if a.pid = pid then { a with status := PStatus.resolved v } else a)
        :: resolveProm as pid v) j = _
    by_cases haj : a.pid = j
    · have hne2 : ¬ a.pid = pid := fun hh => hne (by rw [← haj, hh])
      rw [if_neg hne2]
      simp [pstFind, haj]
    · by_cases hap : a.pid = pid
      · rw [if_pos hap]
        have hpj : ¬ pid = j := fun hh => hne hh.symm
        simp [pstFind, haj, ih, hap, hpj]
      · rw [if_neg hap]
        simp [pstFind, haj, ih]

/-- The fresh session satisfies the invariant. -/
theorem initSession_inv : SessionInv initSession := by
  constructor <;> simp [initSession, taskPids]


/-- All live task pids are below the pid counter. -/
theorem taskPids_lt (s : SessionState) (h : SessionInv s) :
    ∀ x ∈ taskPids s, x < s.nextPid := by
  intro x hx
  unfold taskPids at hx
  rcases List.mem_append.mp hx with hq | hp
  · obtain ⟨t, ht, rfl⟩ := List.mem_map.mp hq
    exact h.bound _ (h.tasks t ht)
  · cases hph : s.phase with
    | idle => rw [hph] at hp; cases hp
    | yielded t res =>
      rw [hph] at hp
      have hx2 : x = t.pid := by simpa using hp
      subst hx2
      exact h.bound _ (h.phaseTask t res hph)

/-- Appending a fresh element keeps a list duplicate-free. -/
theorem nodup_append_fresh {l : List Nat} {a : Nat} (hl : l.Nodup) (ha : a ∉ l) :
    (l ++ [a]).Nodup :=
  (List.perm_append_singleton a l).symm.nodup (List.nodup_cons.mpr ⟨ha, hl⟩)

/-- `onDidChangeContent` preserves the session invariant. -/
theorem ccStep_inv (editFn : STree → Nat → STree) (s : SessionState) (cs : List Nat)
    (h : SessionInv s) : SessionInv (ccStep editFn s cs) := by
  have hfresh : ∀ x ∈ s.promises, x.pid ≠ s.nextPid :=
    fun x hx => Nat.ne_of_lt (h.bound x hx)
  have hfreshm : (s.nextPid : Nat) ∉ s.promises.map PromEntry.pid := by
    intro hmem
    obtain ⟨e, he, hpe⟩ := List.mem_map.mp hmem
    exact hfresh e he hpe
  unfold ccStep
  cases hd : ccDiff (applyEditsTree editFn s.tree cs) s.tree with
  | error msg =>
    constructor
    · intro e he
      rcases List.mem_append.mp he with he | he
      · exact Nat.lt_succ_of_lt (h.bound e he)
      · rw [List.mem_singleton.mp he]; exact Nat.lt_succ_self _
    · simp only [List.map_append, List.map_cons, List.map_nil]
      exact nodup_append_fresh h.nodup hfreshm
    · intro t ht
      exact List.mem_append_left _ (h.tasks t ht)
    · intro t res hph
      exact List.mem_append_left _ (h.phaseTask t res hph)
    · exact h.taskNodup
    · intro e he v hv
      rcases List.mem_append.mp he with he | he
      · exact h.resCorrect e he v hv
      · rw [List.mem_singleton.mp he] at hv
        exact absurd hv (by simp)
  | ok captured =>
    have hnp : s.nextPid ∉ taskPids s :=
      fun hmem => absurd (taskPids_lt s h _ hmem) (lt_irrefl _)
    constructor
    · intro e he
      rcases List.mem_append.mp he with he | he
      · exact Nat.lt_succ_of_lt (h.bound e he)
      · rw [List.mem_singleton.mp he]; exact Nat.lt_succ_self _
    · simp only [List.map_append, List.map_cons, List.map_nil]
      exact nodup_append_fresh h.nodup hfreshm
    · intro t ht
      rcases List.mem_append.mp ht with ht | ht
      · exact List.mem_append_left _ (h.tasks t ht)
      · rw [List.mem_singleton.mp ht]
        exact List.mem_append_right _ (by simp)
    · intro t res hph
      exact List.mem_append_left _ (h.phaseTask t res hph)
    · show ((s.queue ++ [(⟨s.nextPid, captured⟩ : QTask)]).map QTask.pid ++
        (match s.phase with | .idle => [] | .yielded t _ => [t.pid])).Nodup
      simp only [List.map_append, List.map_cons, List.map_nil, List.append_assoc,
        List.singleton_append]
      exact List.perm_middle.symm.nodup (List.nodup_cons.mpr ⟨hnp, h.taskNodup⟩)
    · intro e he v hv
      rcases List.mem_append.mp he with he | he
      · exact h.resCorrect e he v hv
      · rw [List.mem_singleton.mp he] at hv
        exact absurd hv (by simp)

/-- The disposal events preserve the session invariant. -/
theorem dispose_inv (s : SessionState) (h : SessionInv s) :
    SessionInv { s with isDisposed := true, tree := none } ∧
    SessionInv { s with modelDisposed := true } :=
  ⟨⟨h.bound, h.nodup, h.tasks, h.phaseTask, h.taskNodup, h.resCorrect⟩,
   ⟨h.bound, h.nodup, h.tasks, h.phaseTask, h.taskNodup, h.resCorrect⟩⟩

/-- Starting the next queued continuation preserves the invariant. -/
theorem startStep_inv (s : SessionState) (f : Option STree) (h : SessionInv s) :
    SessionInv (startStep s f) := by
  obtain ⟨tr, ne, di, md, q, ph, pr, np, co⟩ := s
  cases ph with
  | yielded t res => exact h
  | idle =>
    cases q with
    | nil => exact h
    | cons t rest =>
      have htasks : ∀ u ∈ rest,
          (⟨u.pid, u.captured, .pending⟩ : PromEntry) ∈ pr :=
        fun u hu => h.tasks u (List.mem_cons_of_mem t hu)
      have htn : (taskPids ⟨tr, ne, di, md, t :: rest, .idle, pr, np, co⟩).Nodup :=
        h.taskNodup
      cases di with
      | true =>
        refine ⟨h.bound, h.nodup, htasks, ?_, ?_, h.resCorrect⟩
        · intro t2 res2 hph
          exact SPhase.noConfusion hph
        · show (rest.map QTask.pid ++ []).Nodup
          have : (t.pid :: (rest.map QTask.pid ++ [])).Nodup := htn
          exact (List.nodup_cons.mp this).2
      | false =>
        refine ⟨h.bound, h.nodup, htasks, ?_, ?_, h.resCorrect⟩
        · intro t2 res2 hph
          have ht2 : t = t2 := by cases hph; rfl
          subst ht2
          exact h.tasks t (List.mem_cons_self t rest)
        · show (rest.map QTask.pid ++ [t.pid]).Nodup
          have hold : (t.pid :: (rest.map QTask.pid ++ [])).Nodup := htn
          simp only [List.append_nil] at hold
          exact (List.perm_append_singleton t.pid (rest.map QTask.pid)).symm.nodup hold

/-- Resolving the running task's promise preserves the invariant for a
state that returns to `idle`. -/
theorem resolve_inv (tr2 : Option STree) (ne2 di2 md2 : Bool) (q : List QTask)
    (pr : List PromEntry) (np : Nat) (co2 : List (Option STree)) (t : QTask)
    (hbound : ∀ e ∈ pr, e.pid < np)
    (hnodup : (pr.map PromEntry.pid).Nodup)
    (htasks : ∀ u ∈ q, (⟨u.pid, u.captured, .pending⟩ : PromEntry) ∈ pr)
    (hent : (⟨t.pid, t.captured, .pending⟩ : PromEntry) ∈ pr)
    (htn : (q.map QTask.pid ++ [t.pid]).Nodup)
    (hres : ∀ e ∈ pr, ∀ v, e.status = .resolved v → v = e.captured) :
    SessionInv ⟨tr2, ne2, di2, md2, q, .idle,
      resolveProm pr t.pid t.captured, np, co2⟩ := by
  have hqne : ∀ u ∈ q, u.pid ≠ t.pid := by
    intro u hu heq
    have hdisj := (List.nodup_append.mp htn).2.2
    exact hdisj (List.mem_map_of_mem QTask.pid hu) (by simp [heq])
  constructor
  · intro x hx
    obtain ⟨e, he, rfl⟩ := mem_resolveProm pr t.pid t.captured x hx
    have hpid : (if e.pid = t.pid then { e with status := PStatus.resolved t.captured }
        else e).pid = e.pid := by
      by_cases hp : e.pid = t.pid <;> simp [hp]
    rw [hpid]
    exact hbound e he
  · show ((resolveProm pr t.pid t.captured).map PromEntry.pid).Nodup
    rw [resolveProm_map_pid]
    exact hnodup
  · intro u hu
    exact resolveProm_keep pr t.pid t.captured _ (htasks u hu) (hqne u hu)
  · intro t2 res2 hph
    exact SPhase.noConfusion hph
  · show (q.map QTask.pid ++ []).Nodup
    simp only [List.append_nil]
    exact (List.nodup_append.mp htn).1
  · intro x hx v hv
    obtain ⟨e, he, rfl⟩ := mem_resolveProm pr t.pid t.captured x hx
    by_cases hp : e.pid = t.pid
    · rw [if_pos hp] at hv ⊢
      have hcap : t.captured = v := by simpa using hv
      have heq : e = ⟨t.pid, t.captured, .pending⟩ :=
        mem_unique_pid pr hnodup e _ he hent hp
      rw [heq]
      simpa using hcap.symm
    · rw [if_neg hp] at hv ⊢
      exact hres e he v hv


/-- The yield continuation preserves the invariant. -/
theorem resumeStep_inv (s : SessionState) (r : Option STree) (h : SessionInv s) :
    SessionInv (resumeStep s r) := by
  obtain ⟨tr, ne, di, md, q, ph, pr, np, co⟩ := s
  cases ph with
  | idle => exact h
  | yielded t res =>
    have hent : (⟨t.pid, t.captured, .pending⟩ : PromEntry) ∈ pr :=
      h.phaseTask t res rfl
    have htn : (q.map QTask.pid ++ [t.pid]).Nodup := h.taskNodup
    show SessionInv (resumeStep _ r)
    unfold resumeStep
    dsimp only
    by_cases hd : (md || di) = true
    · rw [if_pos hd]
      cases ne with
      | true =>
        exact resolve_inv tr true di md q pr np co t
          h.bound h.nodup h.tasks hent htn h.resCorrect
      | false =>
        exact resolve_inv none false di md q pr np (co ++ [none]) t
          h.bound h.nodup h.tasks hent htn h.resCorrect
    · rw [if_neg hd]
      by_cases hc : (res.isNone && !ne) = true
      · rw [if_pos hc]
        refine ⟨h.bound, h.nodup, h.tasks, ?_, ?_, h.resCorrect⟩
        · intro t2 res2 hph
          injection hph with h1 h2
          subst h1
          exact hent
        · show (q.map QTask.pid ++ [t.pid]).Nodup
          exact htn
      · rw [if_neg hc]
        cases ne with
        | true =>
          exact resolve_inv tr true di md q pr np co t
            h.bound h.nodup h.tasks hent htn h.resCorrect
        | false =>
          exact resolve_inv res false di md q pr np (co ++ [res]) t
            h.bound h.nodup h.tasks hent htn h.resCorrect

/-- Every session event preserves the invariant. -/
theorem sessionStep_inv (editFn : STree → Nat → STree) (s : SessionState) (e : SEv)
    (h : SessionInv s) : SessionInv (sessionStep editFn s e) := by
  cases e with
  | contentChange cs => exact ccStep_inv editFn s cs h
  | disposeSession => exact (dispose_inv s h).1
  | disposeModel => exact (dispose_inv s h).2
  | startTask f => exact startStep_inv s f h
  | resume r => exact resumeStep_inv s r h
  | taskFail =>
    obtain ⟨tr, ne, di, md, q, ph, pr, np, co⟩ := s
    cases ph with
    | idle => exact h
    | yielded t res =>
      refine ⟨h.bound, h.nodup, h.tasks, ?_, ?_, h.resCorrect⟩
      · intro t2 res2 hph
        exact SPhase.noConfusion hph
      · show (q.map QTask.pid ++ []).Nodup
        simp only [List.append_nil]
        exact (List.nodup_append.mp h.taskNodup).1

/-- All states reachable from a fresh session satisfy the invariant. -/
theorem sessionRun_inv (editFn : STree → Nat → STree) (p : List SEv) :
    SessionInv (sessionRun editFn initSession p) := by
  suffices h : ∀ s, SessionInv s → SessionInv (sessionRun editFn s p) from
    h _ initSession_inv
  induction p with
  | nil => exact fun s hs => hs
  | cons e p ih => exact fun s hs => ih _ (sessionStep_inv editFn s e hs)

/-- An orphaned pending promise — pending, with its task no longer owned
by the queue — stays pending and orphaned across any single event. -/
theorem orphan_step (editFn : STree → Nat → STree) (s : SessionState) (ev : SEv)
    (h : SessionInv s) (pid : Nat)
    (hpend : promStatus s pid = some .pending) (hnot : pid ∉ taskPids s) :
    promStatus (sessionStep editFn s ev) pid = some .pending ∧
    pid ∉ taskPids (sessionStep editFn s ev) := by
  have hlt : pid < s.nextPid := by
    obtain ⟨e, he, hpe, _⟩ := pstFind_mem s.promises pid _ hpend
    exact hpe ▸ h.bound e he
  cases ev with
  | contentChange cs =>
    show promStatus (ccStep editFn s cs) pid = some .pending ∧
      pid ∉ taskPids (ccStep editFn s cs)
    unfold ccStep
    cases hd : ccDiff (applyEditsTree editFn s.tree cs) s.tree with
    | error msg =>
      exact ⟨pstFind_append_some _ _ _ _ hpend, hnot⟩
    | ok captured =>
      refine ⟨pstFind_append_some _ _ _ _ hpend, ?_⟩
      intro hmem
      unfold taskPids at hmem hnot
      simp only [List.map_append, List.map_cons, List.map_nil,
        List.mem_append, List.mem_singleton] at hmem
      rcases hmem with (hmem | rfl) | hmem
      · exact hnot (List.mem_append_left _ hmem)
      · exact absurd hlt (lt_irrefl _)
      · exact hnot (List.mem_append_right _ hmem)
  | disposeSession => exact ⟨hpend, hnot⟩
  | disposeModel => exact ⟨hpend, hnot⟩
  | startTask f =>
    show promStatus (startStep s f) pid = some .pending ∧
      pid ∉ taskPids (startStep s f)
    obtain ⟨tr, ne, di, md, q, ph, pr, np, co⟩ := s
    cases ph with
    | yielded t res => exact ⟨hpend, hnot⟩
    | idle =>
      cases q with
      | nil => exact ⟨hpend, hnot⟩
      | cons t rest =>
        unfold taskPids at hnot
        simp only [List.map_cons, List.cons_append, List.mem_cons, List.append_nil,
          not_or] at hnot
        cases di with
        | true =>
          refine ⟨hpend, ?_⟩
          show pid ∉ rest.map QTask.pid ++ []
          simp only [List.append_nil]
          exact hnot.2
        | false =>
          refine ⟨hpend, ?_⟩
          show pid ∉ rest.map QTask.pid ++ [t.pid]
          intro hmem
          rcases List.mem_append.mp hmem with hmem | hmem
          · exact hnot.2 hmem
          · exact hnot.1 (by simpa using hmem)
  | taskFail =>
    obtain ⟨tr, ne, di, md, q, ph, pr, np, co⟩ := s
    cases ph with
    | idle => exact ⟨hpend, hnot⟩
    | yielded t res =>
      refine ⟨hpend, ?_⟩
      show pid ∉ q.map QTask.pid ++ []
      intro hmem
      exact hnot (List.mem_append_left _ (by simpa using hmem))
  | resume r =>
    show promStatus (resumeStep s r) pid = some .pending ∧
      pid ∉ taskPids (resumeStep s r)
    obtain ⟨tr, ne, di, md, q, ph, pr, np, co⟩ := s
    cases ph with
    | idle => exact ⟨hpend, hnot⟩
    | yielded t res =>
      have htpid : pid ≠ t.pid := by
        intro hcontra
        apply hnot
        show pid ∈ q.map QTask.pid ++ [t.pid]
        exact List.mem_append_right _ (by simp [hcontra])
      have hq : pid ∉ q.map QTask.pid ++ ([] : List Nat) := by
        intro hmem
        exact hnot (List.mem_append_left _ (by simpa using hmem))
      have hfind : pstFind (resolveProm pr t.pid t.captured) pid = some .pending := by
        rw [pstFind_resolveProm_ne pr t.pid t.captured pid htpid]
        exact hpend
      show promStatus (resumeStep _ r) pid = some .pending ∧
        pid ∉ taskPids (resumeStep _ r)
      unfold resumeStep
      dsimp only
      by_cases hd : (md || di) = true
      · rw [if_pos hd]
        cases ne with
        | true => exact ⟨hfind, hq⟩
        | false => exact ⟨hfind, hq⟩
      · rw [if_neg hd]
        by_cases hc : (res.isNone && !ne) = true
        · rw [if_pos hc]
          refine ⟨hpend, ?_⟩
          show pid ∉ q.map QTask.pid ++ [t.pid]
          intro hmem
          rcases List.mem_append.mp hmem with hmem | hmem
          · exact hq (by simpa using hmem)
          · exact htpid (by simpa using hmem)
        · rw [if_neg hc]
          cases ne with
          | true => exact ⟨hfind, hq⟩
          | false => exact ⟨hfind, hq⟩

/-- An orphaned pending promise stays pending over any schedule: it
never resolves and never rejects. -/
theorem orphan_run (editFn : STree → Nat → STree) (p : List SEv) (s : SessionState)
    (pid : Nat) (h : SessionInv s)
    (hpend : promStatus s pid = some .pending) (hnot : pid ∉ taskPids s) :
    promStatus (sessionRun editFn s p) pid = some .pending := by
  induction p generalizing s with
  | nil => exact hpend
  | cons e p ih =>
    have hstep := orphan_step editFn s e h pid hpend hnot
    exact ih (sessionStep editFn s e) (sessionStep_inv editFn s e h) hstep.1 hstep.2


/-- C10 counterexample. Model-only disposal before the queued reparse
runs does not prevent settlement: the task-start guard checks only the
session flag, the loop then observes `model.isDisposed()`, returns no
tree, and `resolve(changedNodes)` still runs — the promise for change 1
resolves with its captured (empty) diff. -/
theorem modelDispose_still_resolves :
    promStatus (sessionRun idEdit initSession
      [.contentChange [], .startTask (some leafT), .resume none,
       .contentChange [1], .disposeModel, .startTask none, .resume none]) 1
      = some (.resolved (some [])) := by decide

/-- C10 (amended). (1) When the serial queue starts a continuation after
the session itself was disposed, `if (this.isDisposed) return;` discards
the task without settling anything: its promise entry is still pending
and no longer owned by the queue. (2) An orphaned pending promise never
settles under any further schedule — it neither resolves nor rejects, so
a caller awaiting the reported ranges waits forever. (3) When the queued
reparse throws, the queue's `.catch` only logs: the promise list is
untouched (the promise stays pending) and the queue returns to idle. -/
theorem onDidChangeContent_promise_starvation (editFn : STree → Nat → STree) :
    (∀ (s : SessionState) (t : QTask) (rest : List QTask) (f : Option STree),
       SessionInv s → s.phase = .idle → s.queue = t :: rest → s.isDisposed = true →
       (startStep s f).queue = rest ∧ (startStep s f).promises = s.promises ∧
       promStatus (startStep s f) t.pid = some .pending ∧
       t.pid ∉ taskPids (startStep s f)) ∧
    (∀ (p : List SEv) (s : SessionState) (pid : Nat),
       SessionInv s → promStatus s pid = some .pending → pid ∉ taskPids s →
       promStatus (sessionRun editFn s p) pid = some .pending) ∧
    (∀ (s : SessionState) (t : QTask) (res : Option STree),
       s.phase = .yielded t res →
       (sessionStep editFn s .taskFail).promises = s.promises ∧
       (sessionStep editFn s .taskFail).phase = .idle) := by
  refine ⟨?_, ?_, ?_⟩
  · intro s t rest f hinv hph hq hd
    have hent : (⟨t.pid, t.captured, .pending⟩ : PromEntry) ∈ s.promises :=
      hinv.tasks t (hq ▸ List.mem_cons_self t rest)
    have hnodup := hinv.nodup
    have htn := hinv.taskNodup
    unfold taskPids at htn
    rw [hq, hph] at htn
    simp only [List.map_cons, List.cons_append, List.append_nil] at htn
    unfold startStep
    rw [hph, hq]
    dsimp only
    rw [if_pos hd]
    refine ⟨rfl, rfl, ?_, ?_⟩
    · exact pstFind_of_mem_nodup s.promises ⟨t.pid, t.captured, .pending⟩ hent hnodup
    · show t.pid ∉ rest.map QTask.pid ++ ([] : List Nat)
      simp only [List.append_nil]
      exact (List.nodup_cons.mp htn).1
  · intro p s pid hinv hpend hnot
    exact orphan_run editFn p s pid hinv hpend hnot
  · intro s t res hph
    show (match s.phase with
      | SPhase.yielded _ _ => { s with phase := SPhase.idle }
      | SPhase.idle => s).promises = s.promises ∧
      (match s.phase with
      | SPhase.yielded _ _ => { s with phase := SPhase.idle }
      | SPhase.idle => s).phase = SPhase.idle
    rw [hph]
    exact ⟨rfl, rfl⟩

/-- Witness for C10: in the concrete disposed-before-start scenario the
task for change 1 is discarded with its promise pending, and the promise
is still pending after the queue keeps running. -/
theorem onDidChangeContent_promise_starvation_witness :
    (startStep w10s none).queue = [] ∧
    promStatus (startStep w10s none) 1 = some .pending ∧
    promStatus (sessionRun idEdit w10s2 [.resume none, .startTask none]) 1
      = some .pending := by
  have h := onDidChangeContent_promise_starvation idEdit
  have h1 := h.1 w10s ⟨1, some []⟩ [] none
    (sessionRun_inv idEdit
      [.contentChange [], .startTask (some leafT), .resume none,
       .contentChange [1], .disposeSession]) rfl rfl rfl
  refine ⟨h1.1, h1.2.2.1, ?_⟩
  exact h.2.1 [.resume none, .startTask none] w10s2 1
    (startStep_inv w10s none (sessionRun_inv idEdit
      [.contentChange [], .startTask (some leafT), .resume none,
       .contentChange [1], .disposeSession]))
    (by decide) (by decide)

/-- C1 counterexample. A session holding a tree receives change 1: the
diff is computed and captured (`some []` here) and the reparse is
enqueued, but after the session is disposed and the queue drains, the
promise returned for change 1 is still pending — the returned ranges
were never delivered to the caller, so their availability depends on the
enqueued reparse running. -/
theorem diff_not_available_without_reparse :
    (sessionRun idEdit initSession
      [.contentChange [], .startTask (some leafT), .resume none,
       .contentChange [1], .disposeSession, .startTask none, .resume none]).promises
      = [⟨0, none, .resolved none⟩, ⟨1, some [], .pending⟩] ∧
    (sessionRun idEdit initSession
      [.contentChange [], .startTask (some leafT), .resume none,
       .contentChange [1], .disposeSession, .startTask none, .resume none]).queue
      = [] := by
  exact ⟨by decide, by decide⟩

/-- C1 (amended). `onDidChangeContent` computes the changed-range diff
synchronously from the edit and the prior tree, enqueues the reparse
task at the end of the serial FIFO queue, and returns a promise whose
entry captures exactly that diff; the promise is pending immediately
after the call (not yet settled), and whenever any returned promise
resolves, the value it delivers is its creation-time captured diff —
independent of what any reparse produced. -/
theorem onDidChangeContent_enqueues_and_captures (editFn : STree → Nat → STree) :
    (∀ p : List SEv, ∀ e ∈ (sessionRun editFn initSession p).promises, ∀ v,
        e.status = .resolved v → v = e.captured) ∧
    (∀ (s : SessionState) (cs : List Nat) (cap : Option (List RangeChange)),
        SessionInv s →
        ccDiff (applyEditsTree editFn s.tree cs) s.tree = .ok cap →
        (ccStep editFn s cs).queue = s.queue ++ [⟨s.nextPid, cap⟩] ∧
        (⟨s.nextPid, cap, .pending⟩ : PromEntry) ∈ (ccStep editFn s cs).promises ∧
        promStatus (ccStep editFn s cs) s.nextPid = some .pending ∧
        (ccStep editFn s cs).phase = s.phase) := by
  constructor
  · intro p e he v hv
    exact (sessionRun_inv editFn p).resCorrect e he v hv
  · intro s cs cap hinv hd
    unfold ccStep
    rw [hd]
    refine ⟨rfl, List.mem_append_right _ (by simp), ?_, rfl⟩
    show pstFind (s.promises ++ [⟨s.nextPid, cap, .pending⟩]) s.nextPid = some .pending
    exact pstFind_append_fresh s.promises ⟨s.nextPid, cap, .pending⟩
      (fun x hx => Nat.ne_of_lt (hinv.bound x hx))

/-- Witness for C1 (amended): on the concrete parsed session, change 1
appends its task to the queue, and its promise captures the computed
diff and is pending right after the call. -/
theorem onDidChangeContent_enqueues_and_captures_witness :
    (ccStep idEdit w1s [1]).queue = w1s.queue ++ [⟨1, some []⟩] ∧
    promStatus (ccStep idEdit w1s [1]) 1 = some .pending := by
  have h := (onDidChangeContent_enqueues_and_captures idEdit).2 w1s [1] (some [])
    (sessionRun_inv idEdit [.contentChange [], .startTask (some leafT), .resume none])
    rfl
  exact ⟨h.1, h.2.2.1⟩


/-! ## Fuel sufficiency for the changed-node traversal -/

/-- Every tree has at least one node. -/
theorem size_pos (t : STree) : 0 < t.size := by
  cases t with
  | node d cs =>
    show 0 < 1 + STree.sizeL cs
    omega

/-- The only error a lock-step cursor step can raise is the
desynchronization fault. -/
theorem cursorPairStep_error (f : Cursor → Option Cursor) (nc oc : Cursor)
    (msg : String) (h : cursorPairStep f nc oc = .error msg) :
    msg = "Trees are out of sync" := by
  unfold cursorPairStep at h
  cases h1 : f nc <;> cases h2 : f oc <;> rw [h1, h2] at h <;> simp at h <;>
    exact h.symm

/-- Explicit form of a successful `gotoFirstChild`. -/
theorem gotoFirstChild_spec (nc : Cursor) (d : NodeData) (x : STree) (xs : List STree)
    (h : nc.cur = .node d (x :: xs)) :
    Cursor.gotoFirstChild nc = some ⟨⟨d, [], xs⟩ :: nc.frames, x⟩ := by
  unfold Cursor.gotoFirstChild
  rw [h]

/-- Explicit form of a successful `gotoNextSibling`. -/
theorem gotoNextSibling_spec (nc : Cursor) (f : Frame) (fs : List Frame)
    (x : STree) (xs : List STree) (hf : nc.frames = f :: fs) (hr : f.right = x :: xs) :
    Cursor.gotoNextSibling nc = some ⟨⟨f.data, nc.cur :: f.leftRev, xs⟩ :: fs, x⟩ := by
  unfold Cursor.gotoNextSibling
  rw [hf]
  dsimp only
  rw [hr]

/-- Explicit form of a successful `gotoParent`. -/
theorem gotoParent_spec (nc : Cursor) (f : Frame) (fs : List Frame)
    (hf : nc.frames = f :: fs) :
    Cursor.gotoParent nc
      = some ⟨fs, .node f.data (f.leftRev.reverse ++ nc.cur :: f.right)⟩ := by
  unfold Cursor.gotoParent
  rw [hf]

/-- A cursor with a next sibling has a frame with a nonempty right
list. -/
theorem hasNextSibling_spec (nc : Cursor) (hs : nc.hasNextSibling = true) :
    ∃ f fs x xs, nc.frames = f :: fs ∧ f.right = x :: xs := by
  unfold Cursor.hasNextSibling at hs
  cases hnc : nc.frames with
  | nil => rw [hnc] at hs; cases hs
  | cons f fs =>
    rw [hnc] at hs
    dsimp only at hs
    cases hr : f.right with
    | nil => rw [hr] at hs; simp at hs
    | cons x xs => exact ⟨f, fs, x, xs, rfl, hr⟩

/-- A cursor with a parent has a nonempty frame stack. -/
theorem hasParent_spec (nc : Cursor) (hp : nc.hasParent = true) :
    ∃ f fs, nc.frames = f :: fs := by
  unfold Cursor.hasParent at hp
  cases hnc : nc.frames with
  | nil => rw [hnc] at hp; simp at hp
  | cons f fs => exact ⟨f, fs, rfl⟩

/-- `nextSiblingOrParentSibling` with fuel exceeding the frame depth
raises only the desynchronization fault, and a successful move leaves at
most the pending right-sibling work. -/
theorem nsops_fuel : ∀ (fuel : Nat) (nc oc : Cursor),
    nc.frames.length < fuel →
    (∀ msg, nextSiblingOrParentSibling fuel nc oc = .error msg →
       msg = "Trees are out of sync") ∧
    (∀ nc2 oc2, nextSiblingOrParentSibling fuel nc oc = .ok (some (nc2, oc2)) →
       remNew nc2 ≤ sumRights nc.frames) := by
  intro fuel
  induction fuel with
  | zero => intro nc oc h; exact absurd h (Nat.not_lt_zero _)
  | succ fuel ih =>
    intro nc oc hfuel
    unfold nextSiblingOrParentSibling
    by_cases hs : nc.hasNextSibling = true
    · rw [if_pos hs]
      obtain ⟨f, fs, x, xs, hf, hr⟩ := hasNextSibling_spec nc hs
      have hgn := gotoNextSibling_spec nc f fs x xs hf hr
      constructor
      · intro msg hmsg
        exact cursorPairStep_error _ nc oc msg hmsg
      · intro nc2 oc2 hok
        unfold cursorPairStep at hok
        rw [hgn] at hok
        cases h2 : Cursor.gotoNextSibling oc with
        | none => rw [h2] at hok; cases hok
        | some b =>
          rw [h2] at hok
          simp only [Except.ok.injEq, Option.some.injEq, Prod.mk.injEq] at hok
          rw [← hok.1, hf]
          show x.size + (STree.sizeL xs + sumRights fs) ≤ sumRights (f :: fs)
          show x.size + (STree.sizeL xs + sumRights fs)
            ≤ STree.sizeL f.right + sumRights fs
          rw [hr]
          show _ ≤ x.size + STree.sizeL xs + sumRights fs
          omega
    · rw [if_neg hs]
      by_cases hp : nc.hasParent = true
      · rw [if_pos hp]
        obtain ⟨f, fs, hf⟩ := hasParent_spec nc hp
        have hgp := gotoParent_spec nc f fs hf
        cases h2 : Cursor.gotoParent oc with
        | none =>
          have hpair : cursorPairStep Cursor.gotoParent nc oc
              = .error "Trees are out of sync" := by
            unfold cursorPairStep
            rw [hgp, h2]
          rw [hpair]
          constructor
          · intro msg hmsg
            injection hmsg with hmsg
            exact hmsg.symm
          · intro nc2 oc2 hok
            cases hok
        | some b =>
          have hpair : cursorPairStep Cursor.gotoParent nc oc
              = .ok (some (⟨fs, .node f.data (f.leftRev.reverse ++ nc.cur :: f.right)⟩,
                  b)) := by
            unfold cursorPairStep
            rw [hgp, h2]
          rw [hpair]
          have hlen : fs.length < fuel := by
            have hlek : nc.frames.length = fs.length + 1 := by rw [hf]; rfl
            omega
          have hih := ih ⟨fs, .node f.data (f.leftRev.reverse ++ nc.cur :: f.right)⟩
            b hlen
          constructor
          · intro msg hmsg
            exact hih.1 msg hmsg
          · intro nc2 oc2 hok
            have hrem := hih.2 nc2 oc2 hok
            rw [hf]
            show remNew nc2 ≤ STree.sizeL f.right + sumRights fs
            have : sumRights ((⟨fs, STree.node f.data
                (f.leftRev.reverse ++ nc.cur :: f.right)⟩ : Cursor).frames)
                = sumRights fs := rfl
            omega
      · rw [if_neg hp]
        constructor
        · intro msg hmsg
          cases hmsg
        · intro nc2 oc2 hok
          cases hok

/-- The main traversal loop with fuel exceeding the remaining work
raises only the desynchronization fault. -/
theorem fcnLoop_fuel (rootId : Nat) : ∀ (fuel : Nat) (nc oc : Cursor)
    (acc : List (NodeData × NodeData)), remNew nc < fuel →
    ∀ msg, fcnLoop rootId fuel nc oc acc = .error msg →
      msg = "Trees are out of sync" := by
  intro fuel
  induction fuel with
  | zero => intro nc oc acc h; exact absurd h (Nat.not_lt_zero _)
  | succ fuel ih =>
    intro nc oc acc hfuel msg hmsg
    unfold fcnLoop at hmsg
    by_cases hcg : (decide (0 < nc.childCount)
        && !(nc.currentNode.hasChanges && nc.currentNode.id != rootId)) = true
    · rw [if_pos hcg] at hmsg
      have hchild : 0 < nc.childCount := by
        rw [Bool.and_eq_true] at hcg
        exact of_decide_eq_true hcg.1
      obtain ⟨d, cs, hcur⟩ : ∃ d cs, nc.cur = STree.node d cs := by
        cases hc : nc.cur with
        | node d cs => exact ⟨d, cs, rfl⟩
      cases cs with
      | nil =>
        unfold Cursor.childCount at hchild
        rw [hcur] at hchild
        simp [STree.children] at hchild
      | cons x xs =>
        have hgf := gotoFirstChild_spec nc d x xs hcur
        cases h2 : Cursor.gotoFirstChild oc with
        | none =>
          have hpair : cursorPairStep Cursor.gotoFirstChild nc oc
              = .error "Trees are out of sync" := by
            unfold cursorPairStep
            rw [hgf, h2]
          rw [hpair] at hmsg
          have h3 : (Except.error "Trees are out of sync" :
              Except String (List (NodeData × NodeData))) = .error msg := hmsg
          injection h3 with h3
          exact h3.symm
        | some b =>
          have hpair : cursorPairStep Cursor.gotoFirstChild nc oc
              = .ok (some (⟨⟨d, [], xs⟩ :: nc.frames, x⟩, b)) := by
            unfold cursorPairStep
            rw [hgf, h2]
          rw [hpair] at hmsg
          refine ih ⟨⟨d, [], xs⟩ :: nc.frames, x⟩ b _ ?_ msg hmsg
      
          have h4 : remNew nc = (1 + (x.size + STree.sizeL xs)) + sumRights nc.frames := by
            unfold remNew
            rw [hcur]
            rfl
          have h5 : remNew ⟨⟨d, [], xs⟩ :: nc.frames, x⟩
              = x.size + (STree.sizeL xs + sumRights nc.frames) := rfl
          omega
    · rw [if_neg hcg] at hmsg
      have hnso := nsops_fuel (nc.frames.length + 1) nc oc (Nat.lt_succ_self _)
      cases hres : nextSiblingOrParentSibling (nc.frames.length + 1) nc oc with
      | error e =>
        rw [hres] at hmsg
        have h3 : (Except.error e : Except String (List (NodeData × NodeData)))
            = .error msg := hmsg
        injection h3 with h3
        rw [← h3]
        exact hnso.1 e hres
      | ok o =>
        cases o with
        | none =>
          rw [hres] at hmsg
          exact Except.noConfusion hmsg
        | some pq =>
          obtain ⟨nc2, oc2⟩ := pq
          rw [hres] at hmsg
          refine ih nc2 oc2 _ ?_ msg hmsg
          have hrem := hnso.2 nc2 oc2 hres
          have hpos := size_pos nc.cur
          have hr : remNew nc = nc.cur.size + sumRights nc.frames := rfl
          omega

/-- The only error `findChangedNodes` ever raises is the
desynchronization fault: the traversal fuel never runs out. -/
theorem findChangedNodes_error_msg (nt ot : STree) (msg : String)
    (h : findChangedNodes nt ot = .error msg) : msg = "Trees are out of sync" := by
  refine fcnLoop_fuel nt.data.id (nt.size + 1) ⟨[], nt⟩ ⟨[], ot⟩ [] ?_ msg h
  show remNew ⟨[], nt⟩ < nt.size + 1
  have : remNew ⟨[], nt⟩ = nt.size + sumRights [] := rfl
  have h0 : sumRights [] = 0 := rfl
  omega


/-- C9 counterexample. With a structure-changing edit, the diff computed
inside `onDidChangeContent` throws the desynchronization fault — but the
error is not absorbed at the session's queue: the promise returned to
the caller is rejected with it, and no reparse task for that change ever
reaches the queue (which stays empty). -/
theorem desync_error_escapes_to_caller :
    (sessionRun desyncEdit initSession
      [.contentChange [], .startTask (some leafT), .resume none,
       .contentChange [1]]).promises
      = [⟨0, none, .resolved none⟩, ⟨1, none, .rejected "Trees are out of sync"⟩] ∧
    (sessionRun desyncEdit initSession
      [.contentChange [], .startTask (some leafT), .resume none,
       .contentChange [1]]).queue = [] ∧
    (sessionRun desyncEdit initSession
      [.contentChange [], .startTask (some leafT), .resume none,
       .contentChange [1]]).isDisposed = false := by
  exact ⟨by decide, by decide, by decide⟩

/-- C9 (amended). Cursor desynchronization during the changed-node diff
raises the fatal `Trees are out of sync` error — the only error the diff
ever raises — and it aborts handling of that change before any reparse
is enqueued: the error rejects the promise returned by
`onDidChangeContent` (the serial queue and its `.catch` never see it),
while the session is not torn down (dispose flag, queue and phase are
untouched), so the next edit starts a clean attempt. -/
theorem desync_fault_handling (editFn : STree → Nat → STree) :
    (∀ (nt ot : STree) (msg : String), findChangedNodes nt ot = .error msg →
        msg = "Trees are out of sync") ∧
    (∀ (s : SessionState) (cs : List Nat) (msg : String),
        ccDiff (applyEditsTree editFn s.tree cs) s.tree = .error msg →
        msg = "Trees are out of sync" ∧
        (ccStep editFn s cs).queue = s.queue ∧
        (ccStep editFn s cs).isDisposed = s.isDisposed ∧
        (ccStep editFn s cs).phase = s.phase ∧
        (ccStep editFn s cs).promises
          = s.promises ++ [⟨s.nextPid, none, .rejected msg⟩]) := by
  constructor
  · exact findChangedNodes_error_msg
  · intro s cs msg hd
    have hmsg : msg = "Trees are out of sync" := by
      unfold ccDiff at hd
      cases ht : applyEditsTree editFn s.tree cs with
      | none => rw [ht] at hd; cases s.tree <;> cases hd
      | some nt =>
        cases ho : s.tree with
        | none => rw [ht, ho] at hd; cases hd
        | some ot =>
          rw [ht, ho] at hd
          dsimp only at hd
          cases hfc : findChangedNodes nt ot with
          | error e =>
            rw [hfc] at hd
            have h3 : (Except.error e : Except String (Option (List RangeChange)))
                = .error msg := hd
            injection h3 with h3
            rw [← h3]
            exact findChangedNodes_error_msg nt ot e hfc
          | ok l =>
            rw [hfc] at hd
            exact Except.noConfusion hd
    refine ⟨hmsg, ?_, ?_, ?_, ?_⟩ <;>
      · unfold ccStep
        rw [hd]

/-- Witness for C9 (amended): on the concrete session whose edit
desynchronizes the trees, change 1 rejects the returned promise with the
desync fault, enqueues nothing, and leaves the session undisposed. -/
theorem desync_fault_handling_witness :
    (ccStep desyncEdit w9s [1]).queue = w9s.queue ∧
    (ccStep desyncEdit w9s [1]).isDisposed = w9s.isDisposed ∧
    (ccStep desyncEdit w9s [1]).promises
      = w9s.promises ++ [⟨1, none, .rejected "Trees are out of sync"⟩] := by
  have h := (desync_fault_handling desyncEdit).2 w9s [1] "Trees are out of sync" rfl
  exact ⟨h.2.1, h.2.2.1, h.2.2.2.2⟩


/-- Same shape against an empty list forces emptiness. -/
theorem ssL_nil (ds : List STree) (h : sameShapeL [] ds = true) : ds = [] := by
  cases ds with
  | nil => rfl
  | cons d ds => simp [sameShapeL] at h

/-- Same shape against a nonempty list decomposes it. -/
theorem ssL_cons (c : STree) (cs ds : List STree) (h : sameShapeL (c :: cs) ds = true) :
    ∃ d ds2, ds = d :: ds2 ∧ sameShape c d = true ∧ sameShapeL cs ds2 = true := by
  cases ds with
  | nil => simp [sameShapeL] at h
  | cons d ds2 =>
    rw [show sameShapeL (c :: cs) (d :: ds2) = (sameShape c d && sameShapeL cs ds2)
      from rfl, Bool.and_eq_true] at h
    exact ⟨d, ds2, rfl, h.1, h.2⟩

/-- Shape similarity is preserved by appending. -/
theorem ssL_append (xs as ys bs : List STree) (h1 : sameShapeL xs as = true)
    (h2 : sameShapeL ys bs = true) : sameShapeL (xs ++ ys) (as ++ bs) = true := by
  induction xs generalizing as with
  | nil =>
    rw [ssL_nil as h1]
    simpa using h2
  | cons x xs ih =>
    obtain ⟨a, as2, rfl, hxa, hxs⟩ := ssL_cons x xs as h1
    rw [List.cons_append, List.cons_append,
      show sameShapeL (x :: (xs ++ ys)) (a :: (as2 ++ bs))
        = (sameShape x a && sameShapeL (xs ++ ys) (as2 ++ bs)) from rfl,
      Bool.and_eq_true]
    exact ⟨hxa, ih as2 hxs⟩

/-- Shape similarity is preserved by reversal. -/
theorem ssL_reverse (xs as : List STree) (h : sameShapeL xs as = true) :
    sameShapeL xs.reverse as.reverse = true := by
  induction xs generalizing as with
  | nil =>
    rw [ssL_nil as h]
    rfl
  | cons x xs ih =>
    obtain ⟨a, as2, rfl, hxa, hxs⟩ := ssL_cons x xs as h
    rw [List.reverse_cons, List.reverse_cons]
    refine ssL_append xs.reverse as2.reverse [x] [a] (ih as2 hxs) ?_
    rw [show sameShapeL [x] [a] = (sameShape x a && true) from rfl]
    simp [hxa]

/-- Frame-stack similarity against an empty stack forces emptiness. -/
theorem framesSim_nil (gs : List Frame) (h : framesSim [] gs = true) : gs = [] := by
  cases gs with
  | nil => rfl
  | cons g gs => simp [framesSim] at h

/-- Frame-stack similarity against a nonempty stack decomposes it. -/
theorem framesSim_cons (f : Frame) (fs gs : List Frame)
    (h : framesSim (f :: fs) gs = true) :
    ∃ g gs2, gs = g :: gs2 ∧ frameSim f g = true ∧ framesSim fs gs2 = true := by
  cases gs with
  | nil => simp [framesSim] at h
  | cons g gs2 =>
    rw [show framesSim (f :: fs) (g :: gs2) = (frameSim f g && framesSim fs gs2)
      from rfl, Bool.and_eq_true] at h
    exact ⟨g, gs2, rfl, h.1, h.2⟩


/-- Under shape similarity, `nextSiblingOrParentSibling` never faults:
it either reports exhaustion (`ok none`) exactly when no right-sibling
work is pending, or moves both cursors to the next pending subtree,
preserving similarity, consuming no pending output, and leaving exactly
the previous frames' right-sibling work. -/
theorem nsops_sim (rootId : Nat) : ∀ (fs gs : List Frame) (t u : STree),
    framesSim fs gs = true → sameShape t u = true →
    (nextSiblingOrParentSibling (fs.length + 1) ⟨fs, t⟩ ⟨gs, u⟩ = .ok none ∧
       framesRest rootId fs gs = []) ∨
    (∃ nc2 oc2, nextSiblingOrParentSibling (fs.length + 1) ⟨fs, t⟩ ⟨gs, u⟩
        = .ok (some (nc2, oc2)) ∧
       sameShape nc2.cur oc2.cur = true ∧ framesSim nc2.frames oc2.frames = true ∧
       collectChanged rootId nc2.cur oc2.cur
           ++ framesRest rootId nc2.frames oc2.frames
         = framesRest rootId fs gs ∧
       remNew nc2 = sumRights fs) := by
  intro fs
  induction fs with
  | nil =>
    intro gs t u hsim hss
    rw [framesSim_nil gs hsim]
    left
    exact ⟨rfl, rfl⟩
  | cons f fs2 ih =>
    intro gs t u hsim hss
    obtain ⟨g, gs2, rfl, hfg, hsim2⟩ := framesSim_cons f fs2 gs hsim
    rw [show frameSim f g = (sameShapeL f.leftRev g.leftRev
      && sameShapeL f.right g.right) from rfl, Bool.and_eq_true] at hfg
    obtain ⟨hfgl, hfgr⟩ := hfg
    cases hr : f.right with
    | cons x xs =>
      rw [hr] at hfgr
      obtain ⟨y, ys, hgr, hxy, hxys⟩ := ssL_cons x xs g.right hfgr
      right
      refine ⟨⟨⟨f.data, t :: f.leftRev, xs⟩ :: fs2, x⟩,
        ⟨⟨g.data, u :: g.leftRev, ys⟩ :: gs2, y⟩, ?_, hxy, ?_, ?_, ?_⟩
      · show nextSiblingOrParentSibling (fs2.length + 1 + 1)
          ⟨f :: fs2, t⟩ ⟨g :: gs2, u⟩ = _
        unfold nextSiblingOrParentSibling
        rw [if_pos (show Cursor.hasNextSibling ⟨f :: fs2, t⟩ = true by
          unfold Cursor.hasNextSibling
          dsimp only
          rw [hr]
          rfl)]
        unfold cursorPairStep
        rw [gotoNextSibling_spec ⟨f :: fs2, t⟩ f fs2 x xs rfl hr,
            gotoNextSibling_spec ⟨g :: gs2, u⟩ g gs2 y ys rfl hgr]
      · show framesSim (⟨f.data, t :: f.leftRev, xs⟩ :: fs2)
          (⟨g.data, u :: g.leftRev, ys⟩ :: gs2) = true
        rw [show framesSim (⟨f.data, t :: f.leftRev, xs⟩ :: fs2)
            (⟨g.data, u :: g.leftRev, ys⟩ :: gs2)
          = (frameSim ⟨f.data, t :: f.leftRev, xs⟩ ⟨g.data, u :: g.leftRev, ys⟩
              && framesSim fs2 gs2) from rfl, Bool.and_eq_true]
        refine ⟨?_, hsim2⟩
        rw [show frameSim ⟨f.data, t :: f.leftRev, xs⟩ ⟨g.data, u :: g.leftRev, ys⟩
          = (sameShapeL (t :: f.leftRev) (u :: g.leftRev) && sameShapeL xs ys)
          from rfl, Bool.and_eq_true]
        refine ⟨?_, hxys⟩
        rw [show sameShapeL (t :: f.leftRev) (u :: g.leftRev)
          = (sameShape t u && sameShapeL f.leftRev g.leftRev) from rfl,
          Bool.and_eq_true]
        exact ⟨hss, hfgl⟩
      · show collectChanged rootId x y
            ++ (collectChangedL rootId xs ys ++ framesRest rootId fs2 gs2)
          = framesRest rootId (f :: fs2) (g :: gs2)
        rw [show framesRest rootId (f :: fs2) (g :: gs2)
          = collectChangedL rootId f.right g.right ++ framesRest rootId fs2 gs2
          from rfl, hr, hgr]
        rw [show collectChangedL rootId (x :: xs) (y :: ys)
          = collectChanged rootId x y ++ collectChangedL rootId xs ys from rfl]
        rw [List.append_assoc]
      · show x.size + (STree.sizeL xs + sumRights fs2)
          = STree.sizeL f.right + sumRights fs2
        rw [hr]
        show x.size + (STree.sizeL xs + sumRights fs2)
          = x.size + STree.sizeL xs + sumRights fs2
        omega
    | nil =>
      rw [hr] at hfgr
      have hgr : g.right = [] := ssL_nil g.right hfgr
      have ht2 : sameShape (STree.node f.data (f.leftRev.reverse ++ t :: f.right))
          (STree.node g.data (g.leftRev.reverse ++ u :: g.right)) = true := by
        show sameShapeL (f.leftRev.reverse ++ t :: f.right)
          (g.leftRev.reverse ++ u :: g.right) = true
        rw [hr, hgr]
        refine ssL_append f.leftRev.reverse g.leftRev.reverse [t] [u]
          (ssL_reverse f.leftRev g.leftRev hfgl) ?_
        rw [show sameShapeL [t] [u] = (sameShape t u && true) from rfl]
        simp [hss]
      have hstep : nextSiblingOrParentSibling (fs2.length + 1 + 1)
            ⟨f :: fs2, t⟩ ⟨g :: gs2, u⟩
          = nextSiblingOrParentSibling (fs2.length + 1)
            ⟨fs2, .node f.data (f.leftRev.reverse ++ t :: f.right)⟩
            ⟨gs2, .node g.data (g.leftRev.reverse ++ u :: g.right)⟩ := by
        unfold nextSiblingOrParentSibling
        rw [if_neg (show ¬ Cursor.hasNextSibling ⟨f :: fs2, t⟩ = true by
          unfold Cursor.hasNextSibling
          dsimp only
          rw [hr]
          simp)]
        rw [if_pos (show Cursor.hasParent ⟨f :: fs2, t⟩ = true from rfl)]
        unfold cursorPairStep
        rw [gotoParent_spec ⟨f :: fs2, t⟩ f fs2 rfl,
            gotoParent_spec ⟨g :: gs2, u⟩ g gs2 rfl]
        rfl
      have hfr : framesRest rootId (f :: fs2) (g :: gs2)
          = framesRest rootId fs2 gs2 := by
        rw [show framesRest rootId (f :: fs2) (g :: gs2)
          = collectChangedL rootId f.right g.right ++ framesRest rootId fs2 gs2
          from rfl, hr, hgr]
        rfl
      rcases ih gs2 (.node f.data (f.leftRev.reverse ++ t :: f.right))
          (.node g.data (g.leftRev.reverse ++ u :: g.right)) hsim2 ht2 with
        ⟨hok, hrest⟩ | ⟨nc2, oc2, hok, h1, h2, h3, h4⟩
      · left
        constructor
        · show nextSiblingOrParentSibling (fs2.length + 1 + 1)
            ⟨f :: fs2, t⟩ ⟨g :: gs2, u⟩ = Except.ok none
          rw [hstep]
          exact hok
        · rw [hfr]
          exact hrest
      · right
        refine ⟨nc2, oc2, ?_, h1, h2, ?_, ?_⟩
        · show nextSiblingOrParentSibling (fs2.length + 1 + 1)
            ⟨f :: fs2, t⟩ ⟨g :: gs2, u⟩ = Except.ok (some (nc2, oc2))
          rw [hstep]
          exact hok
        · rw [hfr]
          exact h3
        · show remNew nc2 = STree.sizeL f.right + sumRights fs2
          rw [hr]
          show remNew nc2 = 0 + sumRights fs2
          omega


/-- A marked non-root node is recorded alone: its children contribute
nothing. -/
theorem cc_changed (rootId : Nat) (d : NodeData) (cs : List STree) (e : NodeData)
    (ds : List STree) (h : (d.hasChanges && d.id != rootId) = true) :
    collectChanged rootId (.node d cs) (.node e ds) = [(d, e)] := by
  unfold collectChanged
  rw [if_pos h]

/-- An unmarked (or root) node is traversed into its children. -/
theorem cc_unchanged (rootId : Nat) (d : NodeData) (cs : List STree) (e : NodeData)
    (ds : List STree) (h : (d.hasChanges && d.id != rootId) = false) :
    collectChanged rootId (.node d cs) (.node e ds) = collectChangedL rootId cs ds := by
  unfold collectChanged
  rw [if_neg (by simp [h])]

/-- Under shape similarity and sufficient fuel, the cursor-pair loop of
`findChangedNodes` computes exactly the structural collection: the
accumulated output plus the current subtree's changed nodes plus the
pending right-sibling work. -/
theorem fcnLoop_sim (rootId : Nat) : ∀ (fuel : Nat) (ncf ocf : List Frame)
    (nct oct : STree) (acc : List (NodeData × NodeData)),
    sameShape nct oct = true → framesSim ncf ocf = true →
    remNew ⟨ncf, nct⟩ < fuel →
    fcnLoop rootId fuel ⟨ncf, nct⟩ ⟨ocf, oct⟩ acc
      = .ok (acc ++ collectChanged rootId nct oct ++ framesRest rootId ncf ocf) := by
  intro fuel
  induction fuel with
  | zero => intro _ _ _ _ _ _ _ h; exact absurd h (Nat.not_lt_zero _)
  | succ fuel ih =>
    intro ncf ocf nct oct acc hss hfs hfuel
    cases nct with
    | node d cs =>
    cases oct with
    | node e ds =>
    have hssl : sameShapeL cs ds = true := hss
    unfold fcnLoop
    dsimp only [Cursor.childCount, Cursor.currentNode, STree.children, STree.data]
    by_cases hch : (d.hasChanges && d.id != rootId) = true
    · rw [if_neg (by simp [hch])]
      rcases nsops_sim rootId ncf ocf (.node d cs) (.node e ds) hfs hss with
        ⟨hok, hrest⟩ | ⟨nc2, oc2, hok, h1, h2, h3, h4⟩
      · rw [hok]
        dsimp only
        rw [if_pos hch, cc_changed rootId d cs e ds hch, hrest]
        simp
      · rw [hok]
        dsimp only
        rw [if_pos hch]
        obtain ⟨nc2f, nc2c⟩ := nc2
        obtain ⟨oc2f, oc2c⟩ := oc2
        have hb : remNew ⟨nc2f, nc2c⟩ < fuel := by
          have ha : remNew ⟨ncf, STree.node d cs⟩
              = 1 + STree.sizeL cs + sumRights ncf := rfl
          have hb2 : remNew ⟨nc2f, nc2c⟩ = sumRights ncf := h4
          omega
        rw [ih nc2f oc2f nc2c oc2c (acc ++ [(d, e)]) h1 h2 hb,
            cc_changed rootId d cs e ds hch]
        rw [List.append_assoc, h3]
    · have hch2 : (d.hasChanges && d.id != rootId) = false := by
        revert hch
        cases d.hasChanges && d.id != rootId <;> simp
      cases cs with
      | nil =>
        have hds : ds = [] := ssL_nil ds hssl
        subst hds
        rw [if_neg (by simp)]
        rcases nsops_sim rootId ncf ocf (.node d []) (.node e []) hfs hss with
          ⟨hok, hrest⟩ | ⟨nc2, oc2, hok, h1, h2, h3, h4⟩
        · rw [hok]
          dsimp only
          rw [if_neg (by simp [hch2]), cc_unchanged rootId d [] e [] hch2, hrest]
          simp [collectChangedL]
        · rw [hok]
          dsimp only
          rw [if_neg (by simp [hch2])]
          obtain ⟨nc2f, nc2c⟩ := nc2
          obtain ⟨oc2f, oc2c⟩ := oc2
          have hb : remNew ⟨nc2f, nc2c⟩ < fuel := by
            have ha : remNew ⟨ncf, STree.node d []⟩
                = 1 + STree.sizeL [] + sumRights ncf := rfl
            have hb2 : remNew ⟨nc2f, nc2c⟩ = sumRights ncf := h4
            omega
          rw [ih nc2f oc2f nc2c oc2c acc h1 h2 hb,
              cc_unchanged rootId d [] e [] hch2]
          rw [List.append_assoc, h3]
          simp [collectChangedL]
      | cons x xs =>
        obtain ⟨y, ys, hds, hxy, hxys⟩ := ssL_cons x xs ds hssl
        subst hds
        rw [if_pos (by simp [hch2])]
        have hgf1 := gotoFirstChild_spec ⟨ncf, .node d (x :: xs)⟩ d x xs rfl
        have hgf2 := gotoFirstChild_spec ⟨ocf, .node e (y :: ys)⟩ e y ys rfl
        unfold cursorPairStep
        rw [hgf1, hgf2]
        dsimp only
        rw [if_neg (by simp [hch2])]
        have hfs2 : framesSim (⟨d, [], xs⟩ :: ncf) (⟨e, [], ys⟩ :: ocf) = true := by
          rw [show framesSim (⟨d, [], xs⟩ :: ncf) (⟨e, [], ys⟩ :: ocf)
            = (frameSim ⟨d, [], xs⟩ ⟨e, [], ys⟩ && framesSim ncf ocf) from rfl,
            Bool.and_eq_true]
        
          exact ⟨by simp [frameSim, sameShapeL, hxys], hfs⟩
        have hb : remNew ⟨⟨d, [], xs⟩ :: ncf, x⟩ < fuel := by
          have ha : remNew ⟨ncf, STree.node d (x :: xs)⟩
              = 1 + (x.size + STree.sizeL xs) + sumRights ncf := rfl
          have hb2 : remNew ⟨⟨d, [], xs⟩ :: ncf, x⟩
              = x.size + (STree.sizeL xs + sumRights ncf) := rfl
          omega
        rw [ih (⟨d, [], xs⟩ :: ncf) (⟨e, [], ys⟩ :: ocf) x y acc hxy hfs2 hb,
            cc_unchanged rootId d (x :: xs) e (y :: ys) hch2]
        rw [show framesRest rootId (⟨d, [], xs⟩ :: ncf) (⟨e, [], ys⟩ :: ocf)
          = collectChangedL rootId xs ys ++ framesRest rootId ncf ocf from rfl]
        rw [show collectChangedL rootId (x :: xs) (y :: ys)
          = collectChanged rootId x y ++ collectChangedL rootId xs ys from rfl]
        simp [List.append_assoc]


/-- Membership in a child-list collection comes from one child pair. -/
theorem mem_collectChangedL (rootId : Nat) : ∀ (cs ds : List STree)
    (p : NodeData × NodeData), p ∈ collectChangedL rootId cs ds →
    ∃ c d2, c ∈ cs ∧ p ∈ collectChanged rootId c d2 := by
  intro cs
  induction cs with
  | nil => intro ds p hp; simp [collectChangedL] at hp
  | cons c cs2 ih =>
    intro ds p hp
    cases ds with
    | nil => simp [collectChangedL] at hp
    | cons d2 ds2 =>
      rw [show collectChangedL rootId (c :: cs2) (d2 :: ds2)
        = collectChanged rootId c d2 ++ collectChangedL rootId cs2 ds2 from rfl] at hp
      rcases List.mem_append.mp hp with hp | hp
      · exact ⟨c, d2, by simp, hp⟩
      · obtain ⟨c2, d3, hc2, hp2⟩ := ih ds2 p hp
        exact ⟨c2, d3, by simp [hc2], hp2⟩

/-- A member of a child list is no larger than the list's total size. -/
theorem size_le_sizeL : ∀ (cs : List STree) (c : STree), c ∈ cs →
    c.size ≤ STree.sizeL cs := by
  intro cs
  induction cs with
  | nil => intro c hc; cases hc
  | cons x xs ih =>
    intro c hc
    rcases List.mem_cons.mp hc with rfl | hc
    · show c.size ≤ c.size + STree.sizeL xs
      omega
    · have := ih c hc
      show c.size ≤ x.size + STree.sizeL xs
      omega

/-- Every recorded pair's new node carries the change marker and is not
the root. -/
theorem collectChanged_marked (rootId : Nat) : ∀ (n : Nat) (a b : STree),
    a.size ≤ n → ∀ p ∈ collectChanged rootId a b,
    p.1.hasChanges = true ∧ p.1.id ≠ rootId := by
  intro n
  induction n with
  | zero =>
    intro a b ha
    have := size_pos a
    omega
  | succ n ih =>
    intro a b ha p hp
    cases a with
    | node d cs =>
    cases b with
    | node e ds =>
    by_cases hch : (d.hasChanges && d.id != rootId) = true
    · rw [cc_changed rootId d cs e ds hch] at hp
      have hp2 : p = (d, e) := List.mem_singleton.mp hp
      subst hp2
      rw [Bool.and_eq_true] at hch
      exact ⟨hch.1, by simpa using hch.2⟩
    · have hch2 : (d.hasChanges && d.id != rootId) = false := by
        revert hch
        cases d.hasChanges && d.id != rootId <;> simp
      rw [cc_unchanged rootId d cs e ds hch2] at hp
      obtain ⟨c, d2, hc, hp2⟩ := mem_collectChangedL rootId cs ds p hp
      refine ih c d2 ?_ p hp2
      have h1 := size_le_sizeL cs c hc
      have h2 : (STree.node d cs).size = 1 + STree.sizeL cs := rfl
      omega

/-- C7. Changed-node diff discipline, for structurally comparable trees.
(1) The cursor-pair traversal of `findChangedNodes` succeeds and returns
exactly the structural collection `collectChanged`: at every visited
node the new-tree `hasChanges` marker (off the root) decides between
recording and descending, and siblings/ancestor siblings are taken
otherwise.  (2) A marked non-root node contributes exactly one change
unit — the pair of the new node and the corresponding old node — and its
children are not visited, so no descendant of a recorded node
contributes a further unit.  (3) Every recorded pair's new node carries
the marker and is not the root. -/
theorem findChangedNodes_spec (t o : STree) (hss : sameShape t o = true) :
    findChangedNodes t o = .ok (collectChanged t.data.id t o) ∧
    (∀ (d : NodeData) (cs : List STree) (e : NodeData) (ds : List STree),
       d.hasChanges = true → d.id ≠ t.data.id →
       collectChanged t.data.id (.node d cs) (.node e ds) = [(d, e)]) ∧
    (∀ p ∈ collectChanged t.data.id t o,
       p.1.hasChanges = true ∧ p.1.id ≠ t.data.id) := by
  refine ⟨?_, ?_, ?_⟩
  · show fcnLoop t.data.id (t.size + 1) ⟨[], t⟩ ⟨[], o⟩ []
      = .ok (collectChanged t.data.id t o)
    have hb : remNew ⟨[], t⟩ < t.size + 1 := by
      have : remNew ⟨[], t⟩ = t.size + sumRights [] := rfl
      have h0 : sumRights ([] : List Frame) = 0 := rfl
      omega
    rw [fcnLoop_sim t.data.id (t.size + 1) [] [] t o [] hss rfl hb]
    simp [framesRest]
  · intro d cs e ds hd hne
    exact cc_changed t.data.id d cs e ds (by simp [hd, hne])
  · exact collectChanged_marked t.data.id t.size t o (le_refl _)

/-- Witness for C7 at the concrete marked tree pair: the traversal
returns exactly the structural collection, here the single subsuming
node 1 paired with old node 11 (its marked descendant 2 contributes
nothing). -/
theorem findChangedNodes_spec_witness :
    sameShape exNewT exOldT = true ∧
    findChangedNodes exNewT exOldT
      = .ok (collectChanged exNewT.data.id exNewT exOldT) ∧
    (collectChanged exNewT.data.id exNewT exOldT).map (fun p => (p.1.id, p.2.id))
      = [(1, 11)] := by
  refine ⟨by decide, (findChangedNodes_spec exNewT exOldT (by decide)).1, by decide⟩


end TSP
